import Mathlib

/-!
Verification of the cache_system repository core: the policy engine
(`src/cache_system/core/base.py`), the three eviction policies
(`fifo.py`, `lru.py`, `lfu.py`) and the multilevel hierarchy
(`src/cache_system/multilevel/cache_hierarchy.py`), shallowly embedded
as executable Lean definitions.

Python dictionaries preserve insertion order, so every `dict` of the
source is embedded as an association list `List (Nat × α)` together
with the operations `lookupKV` (indexing), `setKV` (assignment:
update in place, or append when the key is new), `eraseKV` (`del`)
and `modKV` (in-place mutation of a stored value).
-/

set_option autoImplicit false

namespace CacheSystem

/-- Keys: Python keys are arbitrary hashable objects; `Nat` is the key domain. -/
abbrev Key := Nat

/-- Values: `none` embeds the Python object `None`, `some n` any other object.
The distinction is load-bearing because `CacheHierarchy.get` tests the value
returned by a level with `is not None`. -/
abbrev Val := Option Nat

/-- Embeds `d[k]` (with `None` for a missing key): first entry with key `k`. -/
def lookupKV {α : Type} : List (Nat × α) → Nat → Option α
  | [], _ => none
  | (k', v) :: t, k => if k' = k then some v else lookupKV t k

/-- Embeds `d[k] = v`: update the first entry with key `k` in place, or append
`(k, v)` at the end (Python dicts keep insertion order). -/
def setKV {α : Type} : List (Nat × α) → Nat → α → List (Nat × α)
  | [], k, v => [(k, v)]
  | (k', v') :: t, k, v => if k' = k then (k', v) :: t else (k', v') :: setKV t k v

/-- Embeds `del d[k]`: remove the first entry with key `k` (no-op when absent). -/
def eraseKV {α : Type} : List (Nat × α) → Nat → List (Nat × α)
  | [], _ => []
  | (k', v) :: t, k => if k' = k then t else (k', v) :: eraseKV t k

/-- Embeds in-place mutation of the object stored at key `k`. -/
def modKV {α : Type} : List (Nat × α) → Nat → (α → α) → List (Nat × α)
  | [], _, _ => []
  | (k', v) :: t, k, f => if k' = k then (k', f v) :: t else (k', v) :: modKV t k f

/-- Embeds `d.keys()`. -/
def kvKeys {α : Type} (l : List (Nat × α)) : List Nat := l.map Prod.fst

/- Lemmas about the association-list primitives are proved after the definitions. -/


/-- Embeds the dataclass `CacheEntry` (src/cache_system/core/base.py).
Timestamps are drawn from a logical clock (`Nat`); each public operation
receives the value `datetime.now()` returned at that moment. -/
structure CacheEntry where
  key : Key
  value : Val
  timestamp : Nat
  access_count : Nat
  size : Nat
deriving DecidableEq, Inhabited

/-- Embeds `CacheEntry(key, value, timestamp, size)` followed by
`__post_init__`, which turns the default `access_count = 0` into 1. -/
def mkEntry (key : Key) (value : Val) (now : Nat) (sz : Nat) : CacheEntry :=
  { key := key, value := value, timestamp := now, access_count := 1, size := sz }

/-- Embeds the entry mutation performed by `LRUCache._on_access` and
`LFUCache._on_access`: `entry.timestamp = datetime.now()` and
`entry.access_count += 1`. -/
def touch (now : Nat) (e : CacheEntry) : CacheEntry :=
  { e with timestamp := now, access_count := e.access_count + 1 }

/-- Embeds the dataclass `CacheStats` (src/cache_system/core/base.py). -/
structure CacheStats where
  hits : Nat
  misses : Nat
  evictions : Nat
  current_size : Nat
  max_size : Nat
deriving DecidableEq, Inhabited

/-- Embeds `CacheStats(max_size=capacity)` built in `CachePolicy.__init__`. -/
def initStats (capacity : Nat) : CacheStats :=
  { hits := 0, misses := 0, evictions := 0, current_size := 0, max_size := capacity }

/-- Embeds the state of a `CachePolicy` instance: capacity, the `_cache`
dict (`key → CacheEntry`, insertion-ordered), `_stats`, and the auxiliary
bookkeeping `Aux` owned by the concrete variant. -/
structure PState (Aux : Type) where
  capacity : Nat
  cache : List (Key × CacheEntry)
  stats : CacheStats
  aux : Aux
deriving DecidableEq

/-- The abstract-hook set of `CachePolicy`: `_evict`, `_on_access`,
`_on_insert`, `_on_update`, `_on_delete`, `_on_clear`. Hooks that mutate the
entry receive the current clock value for the `datetime.now()` call. -/
structure Hooks (Aux : Type) where
  evict : PState Aux → PState Aux
  onAccess : Key → Nat → PState Aux → PState Aux
  onInsert : Key → PState Aux → PState Aux
  onUpdate : Key → Nat → PState Aux → PState Aux
  onDelete : Key → PState Aux → PState Aux
  onClear : Aux → Aux

variable {Aux : Type}

/-- Embeds the `current_size` property: `len(self._cache)`. -/
def currentSize (s : PState Aux) : Nat := s.cache.length

/-- Embeds the `is_full` property: `current_size >= capacity`. -/
def isFull (s : PState Aux) : Bool := s.capacity ≤ currentSize s

/-- Embeds `CachePolicy.contains` / `key in self._cache`. -/
def pContains (s : PState Aux) (key : Key) : Bool := (lookupKV s.cache key).isSome

/-- Embeds `CachePolicy.get`. Returns exactly what the Python call returns:
the entry's value when the key is present (which is Python `None` when the
stored value is `None`), and Python `None` on a miss. -/
def pGet (H : Hooks Aux) (now : Nat) (key : Key) (s : PState Aux) :
    Val × PState Aux :=
  match lookupKV s.cache key with
  | some e =>
      let s1 := { s with stats := { s.stats with hits := s.stats.hits + 1 } }
      (e.value, H.onAccess key now s1)
  | none =>
      (none, { s with stats := { s.stats with misses := s.stats.misses + 1 } })

/-- Embeds `CachePolicy._insert_entry`: build the entry, add it to the dict,
refresh `stats.current_size`, then run the on-insert hook. -/
def insertEntry (H : Hooks Aux) (now : Nat) (key : Key) (value : Val) (sz : Nat)
    (s : PState Aux) : PState Aux :=
  let s1 := { s with cache := s.cache ++ [(key, mkEntry key value now sz)] }
  let s2 := { s1 with stats := { s1.stats with current_size := s1.cache.length } }
  H.onInsert key s2

/-- Embeds `CachePolicy._update_entry`: overwrite value and size in place,
then run the on-update hook. -/
def updateEntry (H : Hooks Aux) (now : Nat) (key : Key) (value : Val) (sz : Nat)
    (s : PState Aux) : PState Aux :=
  let s1 := { s with cache := modKV s.cache key (fun e => { e with value := value, size := sz }) }
  H.onUpdate key now s1

/-- Embeds `CachePolicy.put`: update when present; otherwise evict once when
full, then insert. -/
def pPut (H : Hooks Aux) (now : Nat) (key : Key) (value : Val) (sz : Nat)
    (s : PState Aux) : PState Aux :=
  if pContains s key then updateEntry H now key value sz s
  else
    let s1 := if isFull s then H.evict s else s
    insertEntry H now key value sz s1

/-- Embeds `CachePolicy.delete`: on-delete hook, remove from the dict,
refresh `stats.current_size`; returns whether the key was present. -/
def pDelete (H : Hooks Aux) (key : Key) (s : PState Aux) : Bool × PState Aux :=
  if pContains s key then
    let s1 := H.onDelete key s
    let s2 := { s1 with cache := eraseKV s1.cache key }
    (true, { s2 with stats := { s2.stats with current_size := s2.cache.length } })
  else (false, s)

/-- Embeds `CachePolicy.clear`: empty the dict, run the on-clear hook, zero
`stats.current_size` (hit/miss/eviction counters untouched). -/
def pClear (H : Hooks Aux) (s : PState Aux) : PState Aux :=
  let s1 := { s with cache := [] }
  let s2 := { s1 with aux := H.onClear s1.aux }
  { s2 with stats := { s2.stats with current_size := 0 } }

/-- Embeds `CachePolicy.reset_stats`: a fresh `CacheStats` seeded with the
current size and the original capacity. -/
def pResetStats (s : PState Aux) : PState Aux :=
  { s with stats :=
      { hits := 0, misses := 0, evictions := 0,
        current_size := s.cache.length, max_size := s.capacity } }

/-- Embeds the state built by `CachePolicy.__init__` once the capacity check
has passed (`a0` is the variant's freshly initialised auxiliary state). -/
def pInit (capacity : Nat) (a0 : Aux) : PState Aux :=
  { capacity := capacity, cache := [], stats := initStats capacity, aux := a0 }

/-- One public policy operation together with the clock value observed by the
`datetime.now()` calls it performs. -/
inductive Op where
  | get (now : Nat) (key : Key)
  | put (now : Nat) (key : Key) (value : Val) (sz : Nat)
  | del (key : Key)
  | clear
  | resetStats
deriving DecidableEq

/-- Applies one public operation to a policy state (return values dropped). -/
def applyOp (H : Hooks Aux) : Op → PState Aux → PState Aux
  | .get now key, s => (pGet H now key s).2
  | .put now key value sz, s => pPut H now key value sz s
  | .del key, s => (pDelete H key s).2
  | .clear, s => pClear H s
  | .resetStats, s => pResetStats s

/-- Runs a sequence of public operations left to right. -/
def runOps (H : Hooks Aux) (ops : List Op) (s : PState Aux) : PState Aux :=
  ops.foldl (fun s op => applyOp H op s) s

/-!
FIFO variant (src/cache_system/core/fifo.py). The `_insertion_queue`
deque is a list of keys, head first.
-/

/-- Auxiliary state of `FIFOCache`: the `_insertion_queue` deque. -/
abbrev FifoAux := List Key

/-- Embeds `FIFOCache._evict`: pop the queue head, delete that key from the
dict when present, bump the eviction counter, refresh the size counter. -/
def fifoEvict (s : PState FifoAux) : PState FifoAux :=
  match s.aux with
  | [] => s
  | oldest :: rest =>
      let s1 := { s with aux := rest, cache := eraseKV s.cache oldest }
      { s1 with stats := { s1.stats with evictions := s1.stats.evictions + 1, current_size := s1.cache.length } }

/-- Hook set of `FIFOCache`: access and update are no-ops, insert appends to
the queue, delete removes the first occurrence (a caught `ValueError` makes
removal of an absent key a no-op), clear empties the queue. -/
def fifoHooks : Hooks FifoAux where
  evict := fifoEvict
  onAccess := fun _ _ s => s
  onInsert := fun key s => { s with aux := s.aux ++ [key] }
  onUpdate := fun _ _ s => s
  onDelete := fun key s => { s with aux := s.aux.erase key }
  onClear := fun _ => []

/-- Embeds `FIFOCache.peek_next_eviction`. -/
def peekNextEviction (s : PState FifoAux) : Option Key := s.aux.head?

/-!
LRU variant (src/cache_system/core/lru.py). The doubly linked list with
head/tail sentinels together with `_node_map` realises exactly one
finite key sequence (MRU first, LRU last); `_add_to_front` is `cons`,
`_remove_node` erases the key's node, `_evict` drops the last element.
The sequence is embedded as that list of keys; membership in `_node_map`
coincides with membership in the sequence.
-/

/-- Auxiliary state of `LRUCache`: the recency sequence, MRU first. -/
abbrev LruAux := List Key

/-- Embeds `LRUCache._evict`: remove the node before the tail sentinel (the
last key of the sequence); a no-op when the list is empty. -/
def lruEvict (s : PState LruAux) : PState LruAux :=
  match s.aux.getLast? with
  | none => s
  | some lruKey =>
      let s1 := { s with aux := s.aux.dropLast, cache := eraseKV s.cache lruKey }
      { s1 with stats := { s1.stats with evictions := s1.stats.evictions + 1, current_size := s1.cache.length } }

/-- Embeds `LRUCache._on_access`: touch the entry, then move the key's node
to the front when the key is in `_node_map` (`_move_to_front` = remove the
node, reinsert it right after the head sentinel). -/
def lruOnAccess (key : Key) (now : Nat) (s : PState LruAux) : PState LruAux :=
  if key ∈ s.aux then
    { s with cache := modKV s.cache key (touch now), aux := key :: s.aux.erase key }
  else { s with cache := modKV s.cache key (touch now) }

/-- Hook set of `LRUCache`. -/
def lruHooks : Hooks LruAux where
  evict := lruEvict
  onAccess := lruOnAccess
  onInsert := fun key s => { s with aux := key :: s.aux }
  onUpdate := lruOnAccess
  onDelete := fun key s =>
    if key ∈ s.aux then { s with aux := s.aux.erase key } else s
  onClear := fun _ => []

/-- Embeds `LRUCache.peek_mru`: the node right after the head sentinel. -/
def peekMru (s : PState LruAux) : Option Key := s.aux.head?

/-- Embeds `LRUCache.peek_lru`: the node right before the tail sentinel. -/
def peekLru (s : PState LruAux) : Option Key := s.aux.getLast?

/-!
LFU variant (src/cache_system/core/lfu.py). `_freq_map` is a
`defaultdict(OrderedDict)` mapping a frequency to the insertion-ordered
set of keys at that frequency (each bucket is a key list); `_freq_key`
maps each cached key to its frequency.
-/

/-- Auxiliary state of `LFUCache`. -/
structure LfuAux where
  freq_map : List (Nat × List Key)
  freq_key : List (Key × Nat)
  min_freq : Nat
deriving DecidableEq

/-- Fresh `LFUCache` auxiliary state. -/
def lfuAux0 : LfuAux := { freq_map := [], freq_key := [], min_freq := 0 }

/-- Embeds `self._freq_map[f][k] = None` on an `OrderedDict` bucket: append
`k` when absent (creating the bucket like the `defaultdict` does), keep its
position when already present. -/
def bucketAdd (m : List (Nat × List Key)) (f : Nat) (k : Key) :
    List (Nat × List Key) :=
  setKV m f
    (if k ∈ (lookupKV m f).getD [] then (lookupKV m f).getD []
     else (lookupKV m f).getD [] ++ [k])

/-- The bucket of frequency `cf` after `del self._freq_map[current_freq][key]`
(in-place removal of `key` from the `OrderedDict`). -/
def bucketDel (m : List (Nat × List Key)) (cf : Nat) (key : Key) :
    List (Nat × List Key) :=
  modKV m cf (fun b => b.erase key)

/-- Embeds `LFUCache._increment_frequency`: remove the key from its current
bucket; when the bucket empties, delete it and, if its frequency was
`min_freq`, advance `min_freq` to the next frequency; finally append the
key to the bucket of the incremented frequency and record the new
frequency. A key absent from `_freq_key` would raise `KeyError`; the hook
is only reached with the key cached, and that unreachable branch leaves
the state unchanged. -/
def lfuIncrement (key : Key) (a : LfuAux) : LfuAux :=
  match lookupKV a.freq_key key with
  | none => a
  | some cf =>
      if ((lookupKV (bucketDel a.freq_map cf key) cf).getD []).isEmpty then
        { freq_map := bucketAdd (eraseKV (bucketDel a.freq_map cf key) cf) (cf + 1) key,
          freq_key := setKV a.freq_key key (cf + 1),
          min_freq := if cf = a.min_freq then cf + 1 else a.min_freq }
      else
        { freq_map := bucketAdd (bucketDel a.freq_map cf key) (cf + 1) key,
          freq_key := setKV a.freq_key key (cf + 1),
          min_freq := a.min_freq }

/-- Embeds `LFUCache._evict`: return when `min_freq == 0`; the truthiness
test `not self._freq_map[self._min_freq]` creates an empty bucket through
the `defaultdict` when the bucket is absent, then returns; otherwise pop the
earliest-inserted key of the `min_freq` bucket (`popitem(last=False)`, the
bucket keeping its position), dropping the bucket when it empties (without
recomputing `min_freq`), and remove the key from `_freq_key` and the dict. -/
def lfuEvict (s : PState LfuAux) : PState LfuAux :=
  if s.aux.min_freq = 0 then s
  else
    match lookupKV s.aux.freq_map s.aux.min_freq with
    | none =>
        { s with aux :=
            { s.aux with freq_map := s.aux.freq_map ++ [(s.aux.min_freq, [])] } }
    | some [] => s
    | some (lfuKey :: restBucket) =>
        { capacity := s.capacity,
          cache := eraseKV s.cache lfuKey,
          stats := { s.stats with
            evictions := s.stats.evictions + 1,
            current_size := (eraseKV s.cache lfuKey).length },
          aux :=
            { freq_map :=
                if restBucket.isEmpty then
                  eraseKV (setKV s.aux.freq_map s.aux.min_freq restBucket) s.aux.min_freq
                else setKV s.aux.freq_map s.aux.min_freq restBucket,
              freq_key := eraseKV s.aux.freq_key lfuKey,
              min_freq := s.aux.min_freq } }

/-- Embeds `min(self._freq_map.keys()) if self._freq_map else 0`. -/
def minKeyOf (m : List (Nat × List Key)) : Nat :=
  ((kvKeys m).min?).getD 0

/-- Embeds `LFUCache._on_delete` (the base class removes the dict entry
afterwards): remove the key from its bucket when present; when the bucket
empties, delete it and recompute `min_freq` if the bucket held the minimum
frequency; finally drop the key from `_freq_key`. -/
def lfuOnDelete (key : Key) (a : LfuAux) : LfuAux :=
  match lookupKV a.freq_key key with
  | none => a
  | some f =>
      match lookupKV a.freq_map f with
      | none => { a with freq_key := eraseKV a.freq_key key }
      | some b =>
          if key ∈ b then
            if (b.erase key).isEmpty then
              { freq_map := eraseKV (bucketDel a.freq_map f key) f,
                freq_key := eraseKV a.freq_key key,
                min_freq :=
                  if f = a.min_freq then minKeyOf (eraseKV (bucketDel a.freq_map f key) f)
                  else a.min_freq }
            else
              { freq_map := bucketDel a.freq_map f key,
                freq_key := eraseKV a.freq_key key,
                min_freq := a.min_freq }
          else { a with freq_key := eraseKV a.freq_key key }

/-- Embeds `LFUCache._on_access`: touch the entry, then increment its
frequency (the increment reads only the auxiliary state). -/
def lfuOnAccess (key : Key) (now : Nat) (s : PState LfuAux) : PState LfuAux :=
  { s with cache := modKV s.cache key (touch now), aux := lfuIncrement key s.aux }

/-- Hook set of `LFUCache`. -/
def lfuHooks : Hooks LfuAux where
  evict := lfuEvict
  onAccess := lfuOnAccess
  onInsert := fun key s =>
    { s with aux :=
        { freq_map := bucketAdd s.aux.freq_map 1 key,
          freq_key := setKV s.aux.freq_key key 1,
          min_freq := 1 } }
  onUpdate := lfuOnAccess
  onDelete := fun key s => { s with aux := lfuOnDelete key s.aux }
  onClear := fun _ => lfuAux0

/-- Embeds `LFUCache.peek_lfu`. -/
def peekLfu (s : PState LfuAux) : Option Key :=
  if s.aux.min_freq = 0 then none
  else ((lookupKV s.aux.freq_map s.aux.min_freq).getD []).head?

/-- Embeds `LFUCache.get_key_frequency`. -/
def getKeyFrequency (s : PState LfuAux) (key : Key) : Option Nat :=
  lookupKV s.aux.freq_key key

/-!
A policy instance of any of the three concrete variants.
-/

/-- The three concrete `CachePolicy` subclasses. -/
inductive PolicyKind where
  | fifo
  | lru
  | lfu
deriving DecidableEq

/-- A `CachePolicy` instance of one of the three variants. -/
inductive Policy where
  | fifo : PState FifoAux → Policy
  | lru : PState LruAux → Policy
  | lfu : PState LfuAux → Policy
deriving DecidableEq

namespace Policy

/-- Embeds `CachePolicy.__init__` for the given subclass: `ValueError` when
the requested capacity is not positive, otherwise the fully initialised
instance (empty dict, fresh stats, fresh auxiliary structures). -/
def init (k : PolicyKind) (capacity : Int) : Except String Policy :=
  if capacity ≤ 0 then
    .error "La capacidad de la caché debe ser un número positivo."
  else
    .ok <| match k with
      | .fifo => fifo (pInit capacity.toNat [])
      | .lru => lru (pInit capacity.toNat [])
      | .lfu => lfu (pInit capacity.toNat lfuAux0)

/-- The state built by a successful `__init__` with positive capacity. -/
def init0 (k : PolicyKind) (capacity : Nat) : Policy :=
  match k with
  | .fifo => fifo (pInit capacity [])
  | .lru => lru (pInit capacity [])
  | .lfu => lfu (pInit capacity lfuAux0)

/-- Dispatches `CachePolicy.get` to the variant's hook set. -/
def get (now : Nat) (key : Key) : Policy → Val × Policy
  | fifo s => let r := pGet fifoHooks now key s; (r.1, fifo r.2)
  | lru s => let r := pGet lruHooks now key s; (r.1, lru r.2)
  | lfu s => let r := pGet lfuHooks now key s; (r.1, lfu r.2)

/-- Dispatches `CachePolicy.put` (with its default `size=1`). -/
def put (now : Nat) (key : Key) (value : Val) : Policy → Policy
  | fifo s => fifo (pPut fifoHooks now key value 1 s)
  | lru s => lru (pPut lruHooks now key value 1 s)
  | lfu s => lfu (pPut lfuHooks now key value 1 s)

/-- Dispatches `CachePolicy.delete`. -/
def del (key : Key) : Policy → Bool × Policy
  | fifo s => let r := pDelete fifoHooks key s; (r.1, fifo r.2)
  | lru s => let r := pDelete lruHooks key s; (r.1, lru r.2)
  | lfu s => let r := pDelete lfuHooks key s; (r.1, lfu r.2)

/-- Dispatches `CachePolicy.clear`. -/
def clear : Policy → Policy
  | fifo s => fifo (pClear fifoHooks s)
  | lru s => lru (pClear lruHooks s)
  | lfu s => lfu (pClear lfuHooks s)

/-- Dispatches `CachePolicy._evict` (the abstract hook). -/
def evict : Policy → Policy
  | fifo s => fifo (fifoEvict s)
  | lru s => lru (lruEvict s)
  | lfu s => lfu (lfuEvict s)

/-- Dispatches `CachePolicy._insert_entry` plus the variant's on-insert
hook (with the default `size=1`). -/
def insertNew (now : Nat) (key : Key) (value : Val) (sz : Nat) : Policy → Policy
  | fifo s => fifo (insertEntry fifoHooks now key value sz s)
  | lru s => lru (insertEntry lruHooks now key value sz s)
  | lfu s => lfu (insertEntry lfuHooks now key value sz s)

/-- Applies one public operation (return values dropped). -/
def applyOp : Op → Policy → Policy
  | op, fifo s => fifo (CacheSystem.applyOp fifoHooks op s)
  | op, lru s => lru (CacheSystem.applyOp lruHooks op s)
  | op, lfu s => lfu (CacheSystem.applyOp lfuHooks op s)

/-- Runs a sequence of public operations left to right. -/
def run (ops : List Op) (p : Policy) : Policy :=
  ops.foldl (fun p op => applyOp op p) p

/-- Embeds the `current_size` property. -/
def size : Policy → Nat
  | fifo s => s.cache.length
  | lru s => s.cache.length
  | lfu s => s.cache.length

/-- The stored `_capacity`. -/
def capacity : Policy → Nat
  | fifo s => s.capacity
  | lru s => s.capacity
  | lfu s => s.capacity

/-- The `_stats` record. -/
def stats : Policy → CacheStats
  | fifo s => s.stats
  | lru s => s.stats
  | lfu s => s.stats

/-- The `_cache` dict. -/
def cache : Policy → List (Key × CacheEntry)
  | fifo s => s.cache
  | lru s => s.cache
  | lfu s => s.cache

/-- Embeds `CachePolicy.contains`. -/
def contains (p : Policy) (key : Key) : Bool := (lookupKV p.cache key).isSome

/-- The value stored at `key`, when present. -/
def storedVal (p : Policy) (key : Key) : Option Val :=
  (lookupKV p.cache key).map (·.value)

/-- What a Python caller of `get` observes without the side effects: the
stored value flattened through the `None`-for-missing convention. This is
exactly the value `CacheHierarchy.get` compares against `None`. -/
def observedVal (p : Policy) (key : Key) : Val :=
  (storedVal p key).getD none

end Policy

/-!
Multilevel hierarchy (src/cache_system/multilevel/cache_hierarchy.py).
Latencies are exact rationals; the source only ever adds and divides
them, so no rounding behaviour is modelled.
-/

/-- Embeds the dataclass `LevelStats`. -/
structure LevelStats where
  name : String
  hits : Nat
  misses : Nat
  promotions : Nat
  demotions : Nat
  total_latency_ms : ℚ
deriving DecidableEq

/-- Embeds `LevelStats(name=name)` with the dataclass defaults. -/
def initLevelStats (name : String) : LevelStats :=
  { name := name, hits := 0, misses := 0, promotions := 0, demotions := 0,
    total_latency_ms := 0 }

/-- Embeds the dataclass `CacheLevel`. -/
structure CacheLevel where
  cache : Policy
  name : String
  latency_ms : ℚ
  stats : LevelStats
deriving DecidableEq

/-- Embeds the state of `CacheHierarchy`. -/
structure CacheHierarchy where
  name : String
  levels : List CacheLevel
  total_hits : Nat
  total_misses : Nat
  total_promotions : Nat
  total_latency_ms : ℚ
deriving DecidableEq

/-- Embeds `CacheHierarchy.__init__`. -/
def hInit (name : String) : CacheHierarchy :=
  { name := name, levels := [], total_hits := 0, total_misses := 0,
    total_promotions := 0, total_latency_ms := 0 }

/-- Embeds `CacheHierarchy.add_level` (the `name is None` default branch is
not modelled: a name is always supplied): `ValueError` on a duplicate level
name, otherwise append the level. -/
def hAddLevel (h : CacheHierarchy) (cache : Policy) (name : String)
    (latency_ms : ℚ) : Except String CacheHierarchy :=
  if h.levels.any (fun level => level.name = name) then
    .error "Ya exists un nivel de caché con el nombre"
  else
    .ok { h with levels := h.levels ++
      [{ cache := cache, name := name, latency_ms := latency_ms,
         stats := initLevelStats name }] }

/-- The level-traversal loop of `CacheHierarchy.get`: walks the levels in
order, adding each level's latency to the running cumulative total and to
the level's cumulative-latency counter, calling `get` on the level's policy
and testing the returned value against `None`. Returns the updated levels
and, on the first hit, the value, the 0-based hit index and the cumulative
latency at that point. -/
def hGetLoop (now : Nat) (key : Key) :
    List CacheLevel → ℚ → List CacheLevel × Option (Nat × Nat × ℚ)
  | [], _ => ([], none)
  | level :: rest, cum =>
      let cum1 := cum + level.latency_ms
      let st1 := { level.stats with total_latency_ms := level.stats.total_latency_ms + level.latency_ms }
      let r := Policy.get now key level.cache
      match r.1 with
      | some n =>
          let level1 := { level with cache := r.2, stats := { st1 with hits := st1.hits + 1 } }
          (level1 :: rest, some (n, 0, cum1))
      | none =>
          let res := hGetLoop now key rest cum1
          let level1 := { level with cache := r.2, stats := { st1 with misses := st1.misses + 1 } }
          (level1 :: res.1, res.2.map (fun t => (t.1, t.2.1 + 1, t.2.2)))

/-- Embeds `CacheHierarchy._promote_to_upper_levels`: `put` the value on
every level of index below `i`, incrementing that level's promotion counter;
returns the updated levels and the number of global promotion increments. -/
def promoteLoop (now : Nat) (key : Key) (n : Nat) :
    List CacheLevel → Nat → List CacheLevel × Nat
  | levels, 0 => (levels, 0)
  | [], _ + 1 => ([], 0)
  | level :: rest, i + 1 =>
      let level1 := { level with
        cache := Policy.put now key (some n) level.cache,
        stats := { level.stats with promotions := level.stats.promotions + 1 } }
      let res := promoteLoop now key n rest i
      (level1 :: res.1, res.2 + 1)

/-- Embeds `CacheHierarchy.get`: traverse the levels; on a hit bump the
global hit counter and the global latency total, promote when the hit level
index is positive, and return the value; on a full miss bump the global miss
counter and return `None`. -/
def hGet (now : Nat) (key : Key) (h : CacheHierarchy) : Val × CacheHierarchy :=
  let res := hGetLoop now key h.levels 0
  match res.2 with
  | some (n, i, cum) =>
      let h1 := { h with levels := res.1, total_hits := h.total_hits + 1, total_latency_ms := h.total_latency_ms + cum }
      if 0 < i then
        let pr := promoteLoop now key n h1.levels i
        (some n, { h1 with levels := pr.1, total_promotions := h1.total_promotions + pr.2 })
      else (some n, h1)
  | none =>
      (none, { h with levels := res.1, total_misses := h.total_misses + 1 })

/-- Embeds `CacheHierarchy.put`: `RuntimeError` when the hierarchy has no
levels, otherwise write through every level in order. -/
def hPut (now : Nat) (key : Key) (value : Val) (h : CacheHierarchy) :
    Except String CacheHierarchy :=
  if h.levels.isEmpty then
    .error "No hay niveles de caché en la jerarquía."
  else
    let write := fun level => { level with cache := Policy.put now key value level.cache }
    .ok { h with levels := h.levels.map write }

/-- Embeds `CacheHierarchy.contains`. -/
def hContains (h : CacheHierarchy) (key : Key) : Bool :=
  h.levels.any (fun level => level.cache.contains key)

/-- Embeds the `avg_latency_ms` field of the `global` block of
`CacheHierarchy.get_all_stats`. -/
def globalAvgLatency (h : CacheHierarchy) : ℚ :=
  let total_accesses := h.total_hits + h.total_misses
  if 0 < total_accesses then h.total_latency_ms / total_accesses else 0

/-!
Representation invariants. Each variant keeps its auxiliary ordering
structure in sync with the `_cache` dict (spec §3); these predicates are
proved to hold in every state reachable through the public operations.
-/

/-- `FIFOCache` invariant: dict keys are unique, the insertion queue has no
duplicates, and it holds exactly the cached keys. -/
def fifoWF (s : PState FifoAux) : Prop :=
  (kvKeys s.cache).Nodup ∧ s.aux.Nodup ∧ ∀ k, k ∈ s.aux ↔ k ∈ kvKeys s.cache

/-- `LRUCache` invariant: dict keys are unique, the recency sequence has no
duplicates, and it holds exactly the cached keys. -/
def lruWF (s : PState LruAux) : Prop :=
  (kvKeys s.cache).Nodup ∧ s.aux.Nodup ∧ ∀ k, k ∈ s.aux ↔ k ∈ kvKeys s.cache

/-- `LFUCache` bucket-structure invariant (everything except the `min_freq`
clauses, which `_evict` temporarily breaks inside `put`): dict, `_freq_key`
and `_freq_map` keys are unique; buckets are duplicate-free, non-empty and
keyed by positive frequencies; a key lies in the bucket of frequency `f`
exactly when `_freq_key` maps it to `f`; and `_freq_key`'s domain is exactly
the set of cached keys. -/
structure LfuCore (s : PState LfuAux) : Prop where
  cacheNodup : (kvKeys s.cache).Nodup
  fkNodup : (kvKeys s.aux.freq_key).Nodup
  fmNodup : (kvKeys s.aux.freq_map).Nodup
  bNodup : ∀ f b, (f, b) ∈ s.aux.freq_map → b.Nodup
  bNe : ∀ f b, (f, b) ∈ s.aux.freq_map → b ≠ []
  fPos : ∀ f b, (f, b) ∈ s.aux.freq_map → 0 < f
  inBucket : ∀ k f, (∃ b, lookupKV s.aux.freq_map f = some b ∧ k ∈ b) ↔
    lookupKV s.aux.freq_key k = some f
  fkDom : ∀ k, k ∈ kvKeys s.aux.freq_key ↔ k ∈ kvKeys s.cache

/-- `LFUCache` full invariant: the bucket structure plus the `min_freq`
clauses — `min_freq` is 0 exactly on the empty cache, bounds every active
frequency from below, and is itself an active frequency when the cache is
non-empty. -/
structure LfuWF (s : PState LfuAux) : Prop where
  core : LfuCore s
  mfZero : s.aux.min_freq = 0 ↔ s.cache = []
  mfLe : ∀ f b, (f, b) ∈ s.aux.freq_map → s.aux.min_freq ≤ f
  mfMem : s.cache ≠ [] → s.aux.min_freq ∈ kvKeys s.aux.freq_map

/-- Per-variant invariant of a policy instance, together with the capacity
bound `current_size ≤ capacity` and positivity of the capacity. -/
def Policy.Inv : Policy → Prop
  | .fifo s => fifoWF s ∧ s.cache.length ≤ s.capacity ∧ 0 < s.capacity
  | .lru s => lruWF s ∧ s.cache.length ≤ s.capacity ∧ 0 < s.capacity
  | .lfu s => LfuWF s ∧ s.cache.length ≤ s.capacity ∧ 0 < s.capacity

/-!
Single-level step functions of the hierarchy traversal, named so the
hierarchy theorems can describe the final level list exactly.
-/

/-- A traversal step of `CacheHierarchy.get` on a level that misses:
latency accounting, the policy `get` call, and the miss bump. -/
def missStep (now : Nat) (key : Key) (lv : CacheLevel) : CacheLevel :=
  let st1 := { lv.stats with total_latency_ms := lv.stats.total_latency_ms + lv.latency_ms }
  { lv with cache := (Policy.get now key lv.cache).2, stats := { st1 with misses := st1.misses + 1 } }

/-- A traversal step of `CacheHierarchy.get` on the level that hits:
latency accounting, the policy `get` call, and the hit bump. -/
def hitStep (now : Nat) (key : Key) (lv : CacheLevel) : CacheLevel :=
  let st1 := { lv.stats with total_latency_ms := lv.stats.total_latency_ms + lv.latency_ms }
  { lv with cache := (Policy.get now key lv.cache).2, stats := { st1 with hits := st1.hits + 1 } }

/-- A promotion step of `CacheHierarchy._promote_to_upper_levels` on one
upper level: write the value through and bump the level's promotion
counter. -/
def promoteStep (now : Nat) (key : Key) (n : Nat) (lv : CacheLevel) : CacheLevel :=
  { lv with cache := Policy.put now key (some n) lv.cache,
            stats := { lv.stats with promotions := lv.stats.promotions + 1 } }

/-- The `FIFOCache` state reached by running `ops` on a fresh instance of
capacity `C`. -/
def fifoRun (C : Nat) (ops : List Op) : PState FifoAux :=
  runOps fifoHooks ops (pInit C [])

/-- The `LRUCache` state reached by running `ops` on a fresh instance of
capacity `C`. -/
def lruRun (C : Nat) (ops : List Op) : PState LruAux :=
  runOps lruHooks ops (pInit C [])

/-- The `LFUCache` state reached by running `ops` on a fresh instance of
capacity `C`. -/
def lfuRun (C : Nat) (ops : List Op) : PState LfuAux :=
  runOps lfuHooks ops (pInit C lfuAux0)

/-- Builds the `CacheLevel` record exactly as `CacheHierarchy.add_level`
does, for stating concrete-instance facts. -/
def mkLevel (p : Policy) (nm : String) (lat : ℚ) : CacheLevel :=
  { cache := p, name := nm, latency_ms := lat, stats := initLevelStats nm }

/-- Fixture: a capacity-1 FIFO policy instance that holds key 1 with value
`some 5`, produced through the public `put`. -/
def fifoWith1 : Policy :=
  Policy.applyOp (Op.put 0 1 (some 5) 1) (Policy.init0 PolicyKind.fifo 1)

/-- Fixture: a three-level hierarchy (capacity-1 FIFO levels) whose third
level alone holds key 1, assembled through the public `add_level`. -/
def c2Hierarchy : CacheHierarchy :=
  (((hAddLevel (hInit "H") (Policy.init0 PolicyKind.fifo 1) "L1" 1).bind
      (fun h => hAddLevel h (Policy.init0 PolicyKind.fifo 1) "L2" 2)).bind
      (fun h => hAddLevel h fifoWith1 "L3" 4)).toOption.getD (hInit "H")

/-- Fixture: a one-level hierarchy over an empty capacity-1 FIFO level. -/
def c4Hierarchy : CacheHierarchy :=
  (hAddLevel (hInit "H4") (Policy.init0 PolicyKind.fifo 1) "L1" 1).toOption.getD (hInit "H4")

/-!
Lemmas. Everything below is proof material: first the association-list
primitives, then the per-variant invariant preservation, then the claim
theorems.
-/

section KVLemmas

variable {α : Type}

@[simp] theorem kvKeys_nil : kvKeys ([] : List (Nat × α)) = [] := rfl

@[simp] theorem kvKeys_cons {p : Nat × α} {t : List (Nat × α)} :
    kvKeys (p :: t) = p.1 :: kvKeys t := rfl

theorem mem_kvKeys {l : List (Nat × α)} {k : Nat} :
    k ∈ kvKeys l ↔ ∃ v, (k, v) ∈ l := by
  constructor
  · intro h
    obtain ⟨⟨k0, v0⟩, hm, he⟩ := List.mem_map.1 h
    simp only [Prod.fst] at he
    subst he
    exact ⟨v0, hm⟩
  · rintro ⟨v, hv⟩
    exact List.mem_map.2 ⟨(k, v), hv, rfl⟩

@[simp] theorem lookupKV_nil {k : Nat} : lookupKV ([] : List (Nat × α)) k = none := rfl

theorem lookupKV_cons {k k' : Nat} {v : α} {t : List (Nat × α)} :
    lookupKV ((k', v) :: t) k = if k' = k then some v else lookupKV t k := rfl

theorem lookupKV_eq_none {l : List (Nat × α)} {k : Nat} :
    lookupKV l k = none ↔ k ∉ kvKeys l := by
  induction l with
  | nil => simp
  | cons p t ih =>
    obtain ⟨k', v⟩ := p
    by_cases h : k' = k <;> simp [lookupKV, h] at ih ⊢ <;> tauto

theorem lookupKV_isSome {l : List (Nat × α)} {k : Nat} :
    (lookupKV l k).isSome = true ↔ k ∈ kvKeys l := by
  rw [Option.isSome_iff_ne_none]
  constructor
  · intro h
    by_contra hmem
    exact h (lookupKV_eq_none.2 hmem)
  · intro h hnone
    exact (lookupKV_eq_none.1 hnone) h

theorem mem_kvKeys_of_lookupKV {l : List (Nat × α)} {k : Nat} {v : α}
    (h : lookupKV l k = some v) : k ∈ kvKeys l := by
  rw [← lookupKV_isSome, h]; rfl

theorem lookupKV_mem {l : List (Nat × α)} {k : Nat} {v : α}
    (h : lookupKV l k = some v) : (k, v) ∈ l := by
  induction l with
  | nil => simp [lookupKV] at h
  | cons p t ih =>
    obtain ⟨k', v'⟩ := p
    rw [lookupKV_cons] at h
    by_cases hk : k' = k
    · rw [if_pos hk] at h
      injection h with h
      subst hk
      subst h
      exact List.mem_cons_self _ _
    · rw [if_neg hk] at h
      exact List.mem_cons_of_mem _ (ih h)

theorem lookupKV_of_mem_nodup {l : List (Nat × α)} {k : Nat} {v : α}
    (hd : (kvKeys l).Nodup) (h : (k, v) ∈ l) : lookupKV l k = some v := by
  induction l with
  | nil => simp at h
  | cons p t ih =>
    obtain ⟨k', v'⟩ := p
    rw [kvKeys_cons, List.nodup_cons] at hd
    rcases List.mem_cons.1 h with h1 | h1
    · rw [Prod.mk.injEq] at h1
      obtain ⟨h2, h3⟩ := h1
      subst h2
      subst h3
      simp [lookupKV]
    · have hk : k' ≠ k := by
        intro he
        subst he
        exact hd.1 (mem_kvKeys.2 ⟨v, h1⟩)
      rw [lookupKV_cons, if_neg hk]
      exact ih hd.2 h1

theorem kvKeys_setKV_mem {l : List (Nat × α)} {k : Nat} {v : α}
    (h : k ∈ kvKeys l) : kvKeys (setKV l k v) = kvKeys l := by
  induction l with
  | nil => simp at h
  | cons p t ih =>
    obtain ⟨k', v'⟩ := p
    by_cases hk : k' = k
    · simp [setKV, hk]
    · rw [kvKeys_cons] at h
      rcases List.mem_cons.1 h with h1 | h1
      · exact absurd h1.symm hk
      · simp [setKV, hk, ih h1]

theorem kvKeys_setKV_not_mem {l : List (Nat × α)} {k : Nat} {v : α}
    (h : k ∉ kvKeys l) : kvKeys (setKV l k v) = kvKeys l ++ [k] := by
  induction l with
  | nil => simp [setKV]
  | cons p t ih =>
    obtain ⟨k', v'⟩ := p
    rw [kvKeys_cons, List.mem_cons] at h
    push_neg at h
    have hk : k' ≠ k := Ne.symm h.1
    simp [setKV, hk, ih h.2]

theorem lookupKV_setKV_self {l : List (Nat × α)} {k : Nat} {v : α} :
    lookupKV (setKV l k v) k = some v := by
  induction l with
  | nil => simp [setKV, lookupKV]
  | cons p t ih =>
    obtain ⟨k', v'⟩ := p
    by_cases hk : k' = k <;> simp [setKV, hk, lookupKV, ih]

theorem lookupKV_setKV_ne {l : List (Nat × α)} {k k' : Nat} {v : α}
    (h : k' ≠ k) : lookupKV (setKV l k v) k' = lookupKV l k' := by
  have h' : k ≠ k' := Ne.symm h
  induction l with
  | nil => simp [setKV, lookupKV, h']
  | cons p t ih =>
    obtain ⟨k0, v0⟩ := p
    by_cases hk : k0 = k
    · subst hk
      simp [setKV, lookupKV, h']
    · simp [setKV, hk, lookupKV, ih]

theorem kvKeys_eraseKV {l : List (Nat × α)} {k : Nat} :
    kvKeys (eraseKV l k) = (kvKeys l).erase k := by
  induction l with
  | nil => simp [eraseKV]
  | cons p t ih =>
    obtain ⟨k', v⟩ := p
    by_cases hk : k' = k <;> simp [eraseKV, hk, List.erase_cons, ih]

theorem lookupKV_eraseKV_self {l : List (Nat × α)} {k : Nat}
    (hd : (kvKeys l).Nodup) : lookupKV (eraseKV l k) k = none := by
  rw [lookupKV_eq_none, kvKeys_eraseKV]
  exact fun h => (List.Nodup.not_mem_erase hd) h

theorem lookupKV_eraseKV_ne {l : List (Nat × α)} {k k' : Nat}
    (h : k' ≠ k) : lookupKV (eraseKV l k) k' = lookupKV l k' := by
  have h' : k ≠ k' := Ne.symm h
  induction l with
  | nil => simp [eraseKV]
  | cons p t ih =>
    obtain ⟨k0, v0⟩ := p
    by_cases hk : k0 = k
    · subst hk
      simp [eraseKV, lookupKV, h']
    · simp [eraseKV, hk, lookupKV, ih]

theorem length_eraseKV_of_mem {l : List (Nat × α)} {k : Nat}
    (h : k ∈ kvKeys l) : (eraseKV l k).length + 1 = l.length := by
  induction l with
  | nil => simp at h
  | cons p t ih =>
    obtain ⟨k', v⟩ := p
    by_cases hk : k' = k
    · simp [eraseKV, hk]
    · rw [kvKeys_cons] at h
      rcases List.mem_cons.1 h with h1 | h1
      · exact absurd h1.symm hk
      · simp [eraseKV, hk]
        exact ih h1

theorem eraseKV_of_not_mem {l : List (Nat × α)} {k : Nat}
    (h : k ∉ kvKeys l) : eraseKV l k = l := by
  induction l with
  | nil => rfl
  | cons p t ih =>
    obtain ⟨k', v⟩ := p
    rw [kvKeys_cons, List.mem_cons] at h
    push_neg at h
    have hk : k' ≠ k := Ne.symm h.1
    simp [eraseKV, hk]
    exact ih h.2

theorem kvKeys_modKV {l : List (Nat × α)} {k : Nat} {f : α → α} :
    kvKeys (modKV l k f) = kvKeys l := by
  induction l with
  | nil => rfl
  | cons p t ih =>
    obtain ⟨k', v⟩ := p
    by_cases hk : k' = k <;> simp [modKV, hk, kvKeys] at ih ⊢ <;> exact ih

theorem lookupKV_modKV_self {l : List (Nat × α)} {k : Nat} {f : α → α} :
    lookupKV (modKV l k f) k = (lookupKV l k).map f := by
  induction l with
  | nil => rfl
  | cons p t ih =>
    obtain ⟨k', v⟩ := p
    by_cases hk : k' = k <;> simp [modKV, hk, lookupKV, ih]

theorem lookupKV_modKV_ne {l : List (Nat × α)} {k k' : Nat} {f : α → α}
    (h : k' ≠ k) : lookupKV (modKV l k f) k' = lookupKV l k' := by
  have h' : k ≠ k' := Ne.symm h
  induction l with
  | nil => rfl
  | cons p t ih =>
    obtain ⟨k0, v0⟩ := p
    by_cases hk : k0 = k
    · subst hk
      simp [modKV, lookupKV, h']
    · simp [modKV, hk, lookupKV, ih]

theorem nodup_kvKeys_setKV {l : List (Nat × α)} {k : Nat} {v : α}
    (hd : (kvKeys l).Nodup) : (kvKeys (setKV l k v)).Nodup := by
  by_cases h : k ∈ kvKeys l
  · rw [kvKeys_setKV_mem h]; exact hd
  · rw [kvKeys_setKV_not_mem h]
    simp [List.nodup_append, hd, h]

theorem nodup_kvKeys_eraseKV {l : List (Nat × α)} {k : Nat}
    (hd : (kvKeys l).Nodup) : (kvKeys (eraseKV l k)).Nodup := by
  rw [kvKeys_eraseKV]
  exact hd.erase k

theorem nodup_kvKeys_modKV {l : List (Nat × α)} {k : Nat} {f : α → α}
    (hd : (kvKeys l).Nodup) : (kvKeys (modKV l k f)).Nodup := by
  rw [kvKeys_modKV]; exact hd

theorem mem_kvKeys_eraseKV_iff {l : List (Nat × α)} {k k' : Nat}
    (hd : (kvKeys l).Nodup) :
    k' ∈ kvKeys (eraseKV l k) ↔ k' ≠ k ∧ k' ∈ kvKeys l := by
  rw [kvKeys_eraseKV]
  exact hd.mem_erase_iff

theorem kvKeys_append {l1 l2 : List (Nat × α)} :
    kvKeys (l1 ++ l2) = kvKeys l1 ++ kvKeys l2 := List.map_append _ _ _

theorem lookupKV_append_of_not_mem {l1 l2 : List (Nat × α)} {k : Nat}
    (h : k ∉ kvKeys l1) : lookupKV (l1 ++ l2) k = lookupKV l2 k := by
  induction l1 with
  | nil => rfl
  | cons p t ih =>
    obtain ⟨k', v⟩ := p
    rw [kvKeys_cons, List.mem_cons] at h
    push_neg at h
    have hk : k' ≠ k := Ne.symm h.1
    simp [lookupKV, hk]
    exact ih h.2

theorem lookupKV_append_of_mem {l1 l2 : List (Nat × α)} {k : Nat}
    (h : k ∈ kvKeys l1) : lookupKV (l1 ++ l2) k = lookupKV l1 k := by
  induction l1 with
  | nil => simp at h
  | cons p t ih =>
    obtain ⟨k', v⟩ := p
    by_cases hk : k' = k
    · simp [lookupKV, hk]
    · rw [kvKeys_cons] at h
      rcases List.mem_cons.1 h with h1 | h1
      · exact absurd h1.symm hk
      · simp [lookupKV, hk]
        exact ih h1

theorem length_modKV {l : List (Nat × α)} {k : Nat} {f : α → α} :
    (modKV l k f).length = l.length := by
  induction l with
  | nil => rfl
  | cons p t ih =>
    obtain ⟨k', v⟩ := p
    by_cases hk : k' = k <;> simp [modKV, hk, ih]

theorem length_eraseKV_le {l : List (Nat × α)} {k : Nat} :
    (eraseKV l k).length ≤ l.length := by
  induction l with
  | nil => simp [eraseKV]
  | cons p t ih =>
    obtain ⟨k', v⟩ := p
    by_cases hk : k' = k
    · simp [eraseKV, hk]
    · simpa [eraseKV, hk] using ih

end KVLemmas

/-!
FIFO invariant preservation.
-/

section FifoInv

theorem fifo_get_wf {s : PState FifoAux} {now key : Nat} (h : fifoWF s) :
    fifoWF (pGet fifoHooks now key s).2 := by
  cases hl : lookupKV s.cache key with
  | none => simpa [pGet, hl, fifoWF] using h
  | some e => simpa [pGet, hl, fifoHooks, fifoWF] using h

theorem fifo_evict_wf {s : PState FifoAux} (h : fifoWF s) : fifoWF (fifoEvict s) := by
  obtain ⟨hc, ha, hiff⟩ := h
  unfold fifoEvict
  split
  · exact ⟨hc, ha, hiff⟩
  next oldest rest haux =>
    rw [haux] at ha hiff
    have hno := (List.nodup_cons.1 ha).1
    have hnr := (List.nodup_cons.1 ha).2
    refine ⟨nodup_kvKeys_eraseKV hc, hnr, fun k => ?_⟩
    show k ∈ rest ↔ k ∈ kvKeys (eraseKV s.cache oldest)
    rw [kvKeys_eraseKV, hc.mem_erase_iff]
    constructor
    · intro hk
      refine ⟨?_, (hiff k).1 (List.mem_cons_of_mem _ hk)⟩
      intro he
      subst he
      exact hno hk
    · rintro ⟨hne, hk⟩
      rcases List.mem_cons.1 ((hiff k).2 hk) with h1 | h1
      · exact absurd h1 hne
      · exact h1

theorem fifo_evict_size {s : PState FifoAux} (h : fifoWF s) (hne : s.cache ≠ []) :
    (fifoEvict s).cache.length + 1 = s.cache.length := by
  obtain ⟨hc, ha, hiff⟩ := h
  unfold fifoEvict
  split
  next haux =>
    exfalso
    obtain ⟨⟨k, e⟩, hk⟩ := List.exists_mem_of_ne_nil _ hne
    have hmem : k ∈ kvKeys s.cache := mem_kvKeys.2 ⟨e, hk⟩
    have := (hiff k).2 hmem
    rw [haux] at this
    simp at this
  next oldest rest haux =>
    have hom : oldest ∈ kvKeys s.cache := by
      refine (hiff oldest).1 ?_
      rw [haux]
      exact List.mem_cons_self _ _
    exact length_eraseKV_of_mem hom

theorem fifo_evict_not_mem {s : PState FifoAux} {key : Nat}
    (h : key ∉ kvKeys s.cache) : key ∉ kvKeys (fifoEvict s).cache := by
  unfold fifoEvict
  split
  · exact h
  next oldest rest haux =>
    show key ∉ kvKeys (eraseKV s.cache oldest)
    rw [kvKeys_eraseKV]
    intro hmem
    exact h (List.mem_of_mem_erase hmem)

theorem fifo_evict_capacity {s : PState FifoAux} :
    (fifoEvict s).capacity = s.capacity := by
  unfold fifoEvict
  split <;> rfl

theorem fifo_put_wf {s : PState FifoAux} {now key : Nat} {v : Val} {sz : Nat}
    (h : fifoWF s) : fifoWF (pPut fifoHooks now key v sz s) := by
  unfold pPut
  by_cases hp : pContains s key
  · rw [if_pos hp]
    obtain ⟨hc, ha, hiff⟩ := h
    refine ⟨?_, ha, fun k => ?_⟩
    · show (kvKeys (modKV s.cache key _)).Nodup
      rw [kvKeys_modKV]
      exact hc
    · show k ∈ s.aux ↔ k ∈ kvKeys (modKV s.cache key _)
      rw [kvKeys_modKV]
      exact hiff k
  · rw [if_neg hp]
    have hkey : key ∉ kvKeys s.cache := by
      rw [← lookupKV_eq_none]
      rw [pContains] at hp
      exact Option.not_isSome_iff_eq_none.1 hp
    have h1 : fifoWF (if isFull s then fifoEvict s else s) := by
      split
      · exact fifo_evict_wf h
      · exact h
    have hkey1 : key ∉ kvKeys (if isFull s then fifoEvict s else s).cache := by
      split
      · exact fifo_evict_not_mem hkey
      · exact hkey
    obtain ⟨hc1, ha1, hiff1⟩ := h1
    have hka1 : key ∉ (if isFull s then fifoEvict s else s).aux :=
      fun hm => hkey1 ((hiff1 key).1 hm)
    refine ⟨?_, ?_, fun k => ?_⟩
    · show (kvKeys ((if isFull s then fifoEvict s else s).cache ++ [(key, _)])).Nodup
      rw [kvKeys_append]
      simp [List.nodup_append, hc1, hkey1]
    · show ((if isFull s then fifoEvict s else s).aux ++ [key]).Nodup
      simp [List.nodup_append, ha1, hka1]
    · show k ∈ (if isFull s then fifoEvict s else s).aux ++ [key] ↔
        k ∈ kvKeys ((if isFull s then fifoEvict s else s).cache ++ [(key, _)])
      rw [kvKeys_append, List.mem_append, List.mem_append]
      simp only [List.mem_singleton]
      constructor
      · rintro (hk | hk)
        · exact Or.inl ((hiff1 k).1 hk)
        · exact Or.inr (by simpa using hk)
      · rintro (hk | hk)
        · exact Or.inl ((hiff1 k).2 hk)
        · exact Or.inr (by simpa using hk)

theorem fifo_delete_wf {s : PState FifoAux} {key : Nat} (h : fifoWF s) :
    fifoWF (pDelete fifoHooks key s).2 := by
  unfold pDelete
  by_cases hp : pContains s key
  · rw [if_pos hp]
    obtain ⟨hc, ha, hiff⟩ := h
    refine ⟨?_, ha.erase key, fun k => ?_⟩
    · show (kvKeys (eraseKV s.cache key)).Nodup
      exact nodup_kvKeys_eraseKV hc
    · show k ∈ s.aux.erase key ↔ k ∈ kvKeys (eraseKV s.cache key)
      rw [kvKeys_eraseKV, hc.mem_erase_iff, ha.mem_erase_iff]
      constructor
      · rintro ⟨hne, hk⟩
        exact ⟨hne, (hiff k).1 hk⟩
      · rintro ⟨hne, hk⟩
        exact ⟨hne, (hiff k).2 hk⟩
  · rw [if_neg hp]
    exact h

theorem fifo_clear_wf {s : PState FifoAux} : fifoWF (pClear fifoHooks s) := by
  refine ⟨?_, ?_, fun k => ?_⟩ <;> simp [pClear, fifoHooks]

theorem fifo_applyOp_inv {s : PState FifoAux} {op : Op}
    (h : fifoWF s ∧ s.cache.length ≤ s.capacity ∧ 0 < s.capacity) :
    fifoWF (applyOp fifoHooks op s) ∧
      (applyOp fifoHooks op s).cache.length ≤ (applyOp fifoHooks op s).capacity ∧
      0 < (applyOp fifoHooks op s).capacity := by
  obtain ⟨hwf, hsize, hcap⟩ := h
  cases op with
  | get now key =>
    refine ⟨fifo_get_wf hwf, ?_, ?_⟩
    · show (pGet fifoHooks now key s).2.cache.length ≤ (pGet fifoHooks now key s).2.capacity
      cases hl : lookupKV s.cache key with
      | none => simpa [pGet, hl] using hsize
      | some e => simpa [pGet, hl, fifoHooks] using hsize
    · show 0 < (pGet fifoHooks now key s).2.capacity
      cases hl : lookupKV s.cache key with
      | none => simpa [pGet, hl] using hcap
      | some e => simpa [pGet, hl, fifoHooks] using hcap
  | put now key v sz =>
    refine ⟨fifo_put_wf hwf, ?_, ?_⟩
    · show (pPut fifoHooks now key v sz s).cache.length ≤ (pPut fifoHooks now key v sz s).capacity
      unfold pPut
      by_cases hp : pContains s key
      · rw [if_pos hp]
        show (modKV s.cache key _).length ≤ s.capacity
        rw [length_modKV]
        exact hsize
      · rw [if_neg hp]
        by_cases hf : isFull s
        · rw [if_pos hf]
          have hne : s.cache ≠ [] := by
            intro he
            rw [isFull, currentSize, he] at hf
            simp at hf
            omega
          have := fifo_evict_size hwf hne
          show ((fifoEvict s).cache ++ [(key, _)]).length ≤ (fifoEvict s).capacity
          rw [List.length_append, fifo_evict_capacity]
          simp only [List.length_singleton]
          omega
        · rw [if_neg hf]
          have : s.cache.length < s.capacity := by
            rw [isFull, currentSize] at hf
            simp at hf
            omega
          show (s.cache ++ [(key, _)]).length ≤ s.capacity
          rw [List.length_append]
          simp only [List.length_singleton]
          omega
    · show 0 < (pPut fifoHooks now key v sz s).capacity
      unfold pPut
      by_cases hp : pContains s key
      · rw [if_pos hp]
        exact hcap
      · rw [if_neg hp]
        by_cases hf : isFull s
        · rw [if_pos hf]
          show 0 < (fifoEvict s).capacity
          rw [fifo_evict_capacity]
          exact hcap
        · rw [if_neg hf]
          exact hcap
  | del key =>
    refine ⟨fifo_delete_wf hwf, ?_, ?_⟩
    · show (pDelete fifoHooks key s).2.cache.length ≤ (pDelete fifoHooks key s).2.capacity
      unfold pDelete
      by_cases hp : pContains s key
      · rw [if_pos hp]
        show (eraseKV s.cache key).length ≤ s.capacity
        exact le_trans length_eraseKV_le hsize
      · rw [if_neg hp]
        exact hsize
    · show 0 < (pDelete fifoHooks key s).2.capacity
      unfold pDelete
      by_cases hp : pContains s key
      · rw [if_pos hp]
        exact hcap
      · rw [if_neg hp]
        exact hcap
  | clear =>
    exact ⟨fifo_clear_wf, by simp [applyOp, pClear], by simpa [applyOp, pClear] using hcap⟩
  | resetStats =>
    exact ⟨by simpa [applyOp, pResetStats, fifoWF] using hwf,
      by simpa [applyOp, pResetStats] using hsize,
      by simpa [applyOp, pResetStats] using hcap⟩

theorem fifo_runOps_inv {ops : List Op} {s : PState FifoAux}
    (h : fifoWF s ∧ s.cache.length ≤ s.capacity ∧ 0 < s.capacity) :
    fifoWF (runOps fifoHooks ops s) ∧
      (runOps fifoHooks ops s).cache.length ≤ (runOps fifoHooks ops s).capacity ∧
      0 < (runOps fifoHooks ops s).capacity := by
  induction ops generalizing s with
  | nil => exact h
  | cons op rest ih => exact ih (fifo_applyOp_inv h)

end FifoInv

/-!
LRU invariant preservation.
-/

section LruInv

theorem lru_onAccess_wf {s : PState LruAux} {key now : Nat} (h : lruWF s) :
    lruWF (lruOnAccess key now s) := by
  obtain ⟨hc, ha, hiff⟩ := h
  unfold lruOnAccess
  split
  next hm =>
    refine ⟨?_, ?_, fun k => ?_⟩
    · show (kvKeys (modKV s.cache key (touch now))).Nodup
      rw [kvKeys_modKV]
      exact hc
    · show (key :: s.aux.erase key).Nodup
      exact List.nodup_cons.2 ⟨ha.not_mem_erase, ha.erase key⟩
    · show k ∈ key :: s.aux.erase key ↔ k ∈ kvKeys (modKV s.cache key (touch now))
      rw [kvKeys_modKV, List.mem_cons, ha.mem_erase_iff]
      constructor
      · rintro (he | ⟨hne, hk⟩)
        · subst he
          exact (hiff k).1 hm
        · exact (hiff k).1 hk
      · intro hk
        by_cases he : k = key
        · exact Or.inl he
        · exact Or.inr ⟨he, (hiff k).2 hk⟩
  next hm =>
    refine ⟨?_, ha, fun k => ?_⟩
    · show (kvKeys (modKV s.cache key (touch now))).Nodup
      rw [kvKeys_modKV]
      exact hc
    · show k ∈ s.aux ↔ k ∈ kvKeys (modKV s.cache key (touch now))
      rw [kvKeys_modKV]
      exact hiff k

theorem lru_get_wf {s : PState LruAux} {now key : Nat} (h : lruWF s) :
    lruWF (pGet lruHooks now key s).2 := by
  cases hl : lookupKV s.cache key with
  | none => simpa [pGet, hl, lruWF] using h
  | some e =>
    have h1 : lruWF { s with stats := { s.stats with hits := s.stats.hits + 1 } } := h
    simpa [pGet, hl, lruHooks] using lru_onAccess_wf h1

theorem lru_evict_wf {s : PState LruAux} (h : lruWF s) : lruWF (lruEvict s) := by
  obtain ⟨hc, ha, hiff⟩ := h
  unfold lruEvict
  split
  · exact ⟨hc, ha, hiff⟩
  next lruKey hl =>
    have hne : s.aux ≠ [] := by
      intro he
      rw [he] at hl
      simp at hl
    have hlast : s.aux.getLast hne = lruKey := by
      have heq := List.getLast?_eq_getLast (l := s.aux) hne
      rw [heq] at hl
      exact Option.some.inj hl
    have hdecomp : s.aux.dropLast ++ [lruKey] = s.aux := by
      rw [← hlast]
      exact List.dropLast_append_getLast hne
    rw [← hdecomp] at ha hiff
    obtain ⟨hnod, _, hdisj⟩ := List.nodup_append.1 ha
    have hnm : lruKey ∉ s.aux.dropLast := fun hmem => (hdisj hmem) (List.mem_singleton.2 rfl)
    refine ⟨nodup_kvKeys_eraseKV hc, hnod, fun k => ?_⟩
    show k ∈ s.aux.dropLast ↔ k ∈ kvKeys (eraseKV s.cache lruKey)
    rw [kvKeys_eraseKV, hc.mem_erase_iff]
    constructor
    · intro hk
      refine ⟨?_, (hiff k).1 (List.mem_append_left _ hk)⟩
      intro he
      subst he
      exact hnm hk
    · rintro ⟨hne2, hk⟩
      rcases List.mem_append.1 ((hiff k).2 hk) with h1 | h1
      · exact h1
      · exact absurd (List.mem_singleton.1 h1) hne2

theorem lru_evict_size {s : PState LruAux} (h : lruWF s) (hne : s.cache ≠ []) :
    (lruEvict s).cache.length + 1 = s.cache.length := by
  obtain ⟨hc, ha, hiff⟩ := h
  unfold lruEvict
  split
  next hl =>
    exfalso
    obtain ⟨⟨k, e⟩, hk⟩ := List.exists_mem_of_ne_nil _ hne
    have hmem : k ∈ kvKeys s.cache := mem_kvKeys.2 ⟨e, hk⟩
    have hmem2 := (hiff k).2 hmem
    rw [List.getLast?_eq_none_iff] at hl
    rw [hl] at hmem2
    simp at hmem2
  next lruKey hl =>
    have hom : lruKey ∈ kvKeys s.cache := by
      refine (hiff lruKey).1 ?_
      have hne2 : s.aux ≠ [] := by
        intro he
        rw [he] at hl
        simp at hl
      have hlast : s.aux.getLast hne2 = lruKey := by
        have heq := List.getLast?_eq_getLast (l := s.aux) hne2
        rw [heq] at hl
        exact Option.some.inj hl
      rw [← hlast]
      exact List.getLast_mem hne2
    exact length_eraseKV_of_mem hom

theorem lru_evict_not_mem {s : PState LruAux} {key : Nat}
    (h : key ∉ kvKeys s.cache) : key ∉ kvKeys (lruEvict s).cache := by
  unfold lruEvict
  split
  · exact h
  next lruKey hl =>
    show key ∉ kvKeys (eraseKV s.cache lruKey)
    rw [kvKeys_eraseKV]
    intro hmem
    exact h (List.mem_of_mem_erase hmem)

theorem lru_evict_capacity {s : PState LruAux} :
    (lruEvict s).capacity = s.capacity := by
  unfold lruEvict
  split <;> rfl

theorem lru_put_wf {s : PState LruAux} {now key : Nat} {v : Val} {sz : Nat}
    (h : lruWF s) : lruWF (pPut lruHooks now key v sz s) := by
  unfold pPut
  by_cases hp : pContains s key
  · rw [if_pos hp]
    show lruWF (lruOnAccess key now _)
    refine lru_onAccess_wf ?_
    obtain ⟨hc, ha, hiff⟩ := h
    refine ⟨?_, ha, fun k => ?_⟩
    · show (kvKeys (modKV s.cache key _)).Nodup
      rw [kvKeys_modKV]
      exact hc
    · show k ∈ s.aux ↔ k ∈ kvKeys (modKV s.cache key _)
      rw [kvKeys_modKV]
      exact hiff k
  · rw [if_neg hp]
    have hkey : key ∉ kvKeys s.cache := by
      rw [← lookupKV_eq_none]
      rw [pContains] at hp
      exact Option.not_isSome_iff_eq_none.1 hp
    have h1 : lruWF (if isFull s then lruEvict s else s) := by
      split
      · exact lru_evict_wf h
      · exact h
    have hkey1 : key ∉ kvKeys (if isFull s then lruEvict s else s).cache := by
      split
      · exact lru_evict_not_mem hkey
      · exact hkey
    obtain ⟨hc1, ha1, hiff1⟩ := h1
    have hka1 : key ∉ (if isFull s then lruEvict s else s).aux :=
      fun hm => hkey1 ((hiff1 key).1 hm)
    refine ⟨?_, ?_, fun k => ?_⟩
    · show (kvKeys ((if isFull s then lruEvict s else s).cache ++ [(key, _)])).Nodup
      rw [kvKeys_append]
      simp [List.nodup_append, hc1, hkey1]
    · show (key :: (if isFull s then lruEvict s else s).aux).Nodup
      exact List.nodup_cons.2 ⟨hka1, ha1⟩
    · show k ∈ key :: (if isFull s then lruEvict s else s).aux ↔
        k ∈ kvKeys ((if isFull s then lruEvict s else s).cache ++ [(key, _)])
      rw [kvKeys_append, List.mem_append, List.mem_cons]
      simp only [kvKeys_cons, kvKeys_nil, List.mem_cons, List.not_mem_nil, or_false]
      constructor
      · rintro (hk | hk)
        · exact Or.inr hk
        · exact Or.inl ((hiff1 k).1 hk)
      · rintro (hk | hk)
        · exact Or.inr ((hiff1 k).2 hk)
        · exact Or.inl hk

theorem lru_delete_wf {s : PState LruAux} {key : Nat} (h : lruWF s) :
    lruWF (pDelete lruHooks key s).2 := by
  unfold pDelete
  by_cases hp : pContains s key
  · rw [if_pos hp]
    obtain ⟨hc, ha, hiff⟩ := h
    have hmem : key ∈ kvKeys s.cache := by
      rw [pContains] at hp
      exact lookupKV_isSome.1 hp
    have hma : key ∈ s.aux := (hiff key).2 hmem
    show lruWF _
    have honDel : (lruHooks.onDelete key s) = { s with aux := s.aux.erase key } := by
      show (if key ∈ s.aux then { s with aux := s.aux.erase key } else s) = _
      rw [if_pos hma]
    rw [honDel]
    refine ⟨?_, ha.erase key, fun k => ?_⟩
    · show (kvKeys (eraseKV s.cache key)).Nodup
      exact nodup_kvKeys_eraseKV hc
    · show k ∈ s.aux.erase key ↔ k ∈ kvKeys (eraseKV s.cache key)
      rw [kvKeys_eraseKV, hc.mem_erase_iff, ha.mem_erase_iff]
      constructor
      · rintro ⟨hne, hk⟩
        exact ⟨hne, (hiff k).1 hk⟩
      · rintro ⟨hne, hk⟩
        exact ⟨hne, (hiff k).2 hk⟩
  · rw [if_neg hp]
    exact h

theorem lru_clear_wf {s : PState LruAux} : lruWF (pClear lruHooks s) := by
  refine ⟨?_, ?_, fun k => ?_⟩ <;> simp [pClear, lruHooks]

theorem lru_applyOp_inv {s : PState LruAux} {op : Op}
    (h : lruWF s ∧ s.cache.length ≤ s.capacity ∧ 0 < s.capacity) :
    lruWF (applyOp lruHooks op s) ∧
      (applyOp lruHooks op s).cache.length ≤ (applyOp lruHooks op s).capacity ∧
      0 < (applyOp lruHooks op s).capacity := by
  obtain ⟨hwf, hsize, hcap⟩ := h
  cases op with
  | get now key =>
    refine ⟨lru_get_wf hwf, ?_, ?_⟩
    · show (pGet lruHooks now key s).2.cache.length ≤ (pGet lruHooks now key s).2.capacity
      cases hl : lookupKV s.cache key with
      | none => simpa [pGet, hl] using hsize
      | some e =>
        simp only [pGet, hl, lruHooks, lruOnAccess]
        split
        · simpa [length_modKV] using hsize
        · simpa [length_modKV] using hsize
    · show 0 < (pGet lruHooks now key s).2.capacity
      cases hl : lookupKV s.cache key with
      | none => simpa [pGet, hl] using hcap
      | some e =>
        simp only [pGet, hl, lruHooks, lruOnAccess]
        split
        · simpa using hcap
        · simpa using hcap
  | put now key v sz =>
    refine ⟨lru_put_wf hwf, ?_, ?_⟩
    · show (pPut lruHooks now key v sz s).cache.length ≤ (pPut lruHooks now key v sz s).capacity
      unfold pPut
      by_cases hp : pContains s key
      · rw [if_pos hp]
        show (lruOnAccess key now _).cache.length ≤ (lruOnAccess key now _).capacity
        unfold lruOnAccess
        split
        · simpa [length_modKV] using hsize
        · simpa [length_modKV] using hsize
      · rw [if_neg hp]
        by_cases hf : isFull s
        · rw [if_pos hf]
          have hne : s.cache ≠ [] := by
            intro he
            rw [isFull, currentSize, he] at hf
            simp at hf
            omega
          have := lru_evict_size hwf hne
          show ((lruEvict s).cache ++ [(key, _)]).length ≤ (lruEvict s).capacity
          rw [List.length_append, lru_evict_capacity]
          simp only [List.length_singleton]
          omega
        · rw [if_neg hf]
          have : s.cache.length < s.capacity := by
            rw [isFull, currentSize] at hf
            simp at hf
            omega
          show (s.cache ++ [(key, _)]).length ≤ s.capacity
          rw [List.length_append]
          simp only [List.length_singleton]
          omega
    · show 0 < (pPut lruHooks now key v sz s).capacity
      unfold pPut
      by_cases hp : pContains s key
      · rw [if_pos hp]
        show 0 < (lruOnAccess key now _).capacity
        unfold lruOnAccess
        split
        · simpa using hcap
        · simpa using hcap
      · rw [if_neg hp]
        by_cases hf : isFull s
        · rw [if_pos hf]
          show 0 < (lruEvict s).capacity
          rw [lru_evict_capacity]
          exact hcap
        · rw [if_neg hf]
          exact hcap
  | del key =>
    refine ⟨lru_delete_wf hwf, ?_, ?_⟩
    · show (pDelete lruHooks key s).2.cache.length ≤ (pDelete lruHooks key s).2.capacity
      unfold pDelete
      by_cases hp : pContains s key
      · rw [if_pos hp]
        show (eraseKV (lruHooks.onDelete key s).cache key).length ≤ (lruHooks.onDelete key s).capacity
        have hcc : (lruHooks.onDelete key s).cache = s.cache := by
          show (if key ∈ s.aux then { s with aux := s.aux.erase key } else s).cache = s.cache
          split <;> rfl
        have hcp : (lruHooks.onDelete key s).capacity = s.capacity := by
          show (if key ∈ s.aux then { s with aux := s.aux.erase key } else s).capacity = s.capacity
          split <;> rfl
        rw [hcc, hcp]
        exact le_trans length_eraseKV_le hsize
      · rw [if_neg hp]
        exact hsize
    · show 0 < (pDelete lruHooks key s).2.capacity
      unfold pDelete
      by_cases hp : pContains s key
      · rw [if_pos hp]
        show 0 < (lruHooks.onDelete key s).capacity
        have hcp : (lruHooks.onDelete key s).capacity = s.capacity := by
          show (if key ∈ s.aux then { s with aux := s.aux.erase key } else s).capacity = s.capacity
          split <;> rfl
        rw [hcp]
        exact hcap
      · rw [if_neg hp]
        exact hcap
  | clear =>
    exact ⟨lru_clear_wf, by simp [applyOp, pClear], by simpa [applyOp, pClear] using hcap⟩
  | resetStats =>
    exact ⟨by simpa [applyOp, pResetStats, lruWF] using hwf,
      by simpa [applyOp, pResetStats] using hsize,
      by simpa [applyOp, pResetStats] using hcap⟩

theorem lru_runOps_inv {ops : List Op} {s : PState LruAux}
    (h : lruWF s ∧ s.cache.length ≤ s.capacity ∧ 0 < s.capacity) :
    lruWF (runOps lruHooks ops s) ∧
      (runOps lruHooks ops s).cache.length ≤ (runOps lruHooks ops s).capacity ∧
      0 < (runOps lruHooks ops s).capacity := by
  induction ops generalizing s with
  | nil => exact h
  | cons op rest ih => exact ih (lru_applyOp_inv h)

end LruInv

/-!
LFU invariant preservation.
-/

section LfuInv

theorem mem_iff_lookupKV {α : Type} {l : List (Nat × α)} (hd : (kvKeys l).Nodup)
    {k : Nat} {v : α} : (k, v) ∈ l ↔ lookupKV l k = some v :=
  ⟨lookupKV_of_mem_nodup hd, lookupKV_mem⟩

theorem lookupKV_bucketAdd_self {m : List (Nat × List Key)} {f : Nat} {k : Key} :
    lookupKV (bucketAdd m f k) f =
      some (if k ∈ (lookupKV m f).getD [] then (lookupKV m f).getD []
            else (lookupKV m f).getD [] ++ [k]) :=
  lookupKV_setKV_self

theorem lookupKV_bucketAdd_ne {m : List (Nat × List Key)} {f f' : Nat} {k : Key}
    (h : f' ≠ f) : lookupKV (bucketAdd m f k) f' = lookupKV m f' :=
  lookupKV_setKV_ne h

theorem nodup_kvKeys_bucketAdd {m : List (Nat × List Key)} {f : Nat} {k : Key}
    (h : (kvKeys m).Nodup) : (kvKeys (bucketAdd m f k)).Nodup :=
  nodup_kvKeys_setKV h

theorem mem_kvKeys_bucketAdd_self {m : List (Nat × List Key)} {f : Nat} {k : Key} :
    f ∈ kvKeys (bucketAdd m f k) :=
  mem_kvKeys_of_lookupKV lookupKV_bucketAdd_self

theorem mem_kvKeys_bucketAdd_iff {m : List (Nat × List Key)} {f f' : Nat} {k : Key} :
    f' ∈ kvKeys (bucketAdd m f k) ↔ f' = f ∨ f' ∈ kvKeys m := by
  by_cases hm : f ∈ kvKeys m
  · rw [bucketAdd, kvKeys_setKV_mem hm]
    constructor
    · exact fun h => Or.inr h
    · rintro (rfl | h)
      · exact hm
      · exact h
  · rw [bucketAdd, kvKeys_setKV_not_mem hm, List.mem_append, List.mem_singleton]
    exact or_comm

theorem lookupKV_bucketDel_self {m : List (Nat × List Key)} {cf : Nat} {key : Key} :
    lookupKV (bucketDel m cf key) cf = (lookupKV m cf).map (fun b => b.erase key) :=
  lookupKV_modKV_self

theorem lookupKV_bucketDel_ne {m : List (Nat × List Key)} {cf f : Nat} {key : Key}
    (h : f ≠ cf) : lookupKV (bucketDel m cf key) f = lookupKV m f :=
  lookupKV_modKV_ne h

theorem kvKeys_bucketDel {m : List (Nat × List Key)} {cf : Nat} {key : Key} :
    kvKeys (bucketDel m cf key) = kvKeys m :=
  kvKeys_modKV

theorem lfu_onAccess_wf {s : PState LfuAux} {key now : Nat} (h : LfuWF s)
    (hm : key ∈ kvKeys s.cache) : LfuWF (lfuOnAccess key now s) := by
  obtain ⟨core, mfZero, mfLe, mfMem⟩ := h
  obtain ⟨hcN, hfkN, hfmN, hbN, hbNe, hfPos, hinB, hfkDom⟩ := core
  have hcne : s.cache ≠ [] := by
    intro he
    rw [he] at hm
    simp at hm
  have hcne' : modKV s.cache key (touch now) ≠ [] := by
    intro he
    have hlen := length_modKV (l := s.cache) (k := key) (f := touch now)
    rw [he] at hlen
    exact hcne (List.length_eq_zero.1 hlen.symm)
  have hk1 : key ∈ kvKeys s.aux.freq_key := (hfkDom key).2 hm
  obtain ⟨cf, hcf⟩ : ∃ cf, lookupKV s.aux.freq_key key = some cf := by
    cases hl : lookupKV s.aux.freq_key key with
    | none => exact absurd hk1 (lookupKV_eq_none.1 hl)
    | some cf => exact ⟨cf, rfl⟩
  obtain ⟨b, hb, hkb⟩ := (hinB key cf).2 hcf
  have hbmem : (cf, b) ∈ s.aux.freq_map := lookupKV_mem hb
  have hbNodup : b.Nodup := hbN cf b hbmem
  have hcfPos : 0 < cf := hfPos cf b hbmem
  have hm1N : (kvKeys (bucketDel s.aux.freq_map cf key)).Nodup := by
    rw [kvKeys_bucketDel]
    exact hfmN
  have hDel : lookupKV (bucketDel s.aux.freq_map cf key) cf = some (b.erase key) := by
    rw [lookupKV_bucketDel_self, hb]
    rfl
  have main : ∀ (m2 : List (Nat × List Key)) (mf : Nat),
      lookupKV m2 cf = (if (b.erase key).isEmpty then none else some (b.erase key)) →
      (∀ f, f ≠ cf → lookupKV m2 f = lookupKV s.aux.freq_map f) →
      (kvKeys m2).Nodup →
      (∀ f, f ∈ kvKeys m2 → f ∈ kvKeys s.aux.freq_map) →
      (mf = if (b.erase key).isEmpty ∧ cf = s.aux.min_freq then cf + 1 else s.aux.min_freq) →
      ((b.erase key).isEmpty → cf ∉ kvKeys m2) →
      (∀ f, f ∈ kvKeys s.aux.freq_map → f ≠ cf → f ∈ kvKeys m2) →
      LfuWF { capacity := s.capacity, cache := modKV s.cache key (touch now),
              stats := s.stats,
              aux := { freq_map := bucketAdd m2 (cf + 1) key,
                       freq_key := setKV s.aux.freq_key key (cf + 1),
                       min_freq := mf } } := by
    intro m2 mf hA hB hC hD hE hG hKeep
    have hcfne1 : cf ≠ cf + 1 := by omega
    have hcf1ne : cf + 1 ≠ cf := by omega
    have hl2cf1 : lookupKV m2 (cf + 1) = lookupKV s.aux.freq_map (cf + 1) := hB _ hcf1ne
    have hkeyb2 : key ∉ (lookupKV m2 (cf + 1)).getD [] := by
      rw [hl2cf1]
      cases hl : lookupKV s.aux.freq_map (cf + 1) with
      | none => simp
      | some b' =>
        intro hmemb
        have : lookupKV s.aux.freq_key key = some (cf + 1) :=
          (hinB key (cf + 1)).1 ⟨b', hl, by simpa using hmemb⟩
        rw [hcf] at this
        exact hcfne1 (Option.some.inj this)
    have hm3self : lookupKV (bucketAdd m2 (cf + 1) key) (cf + 1) =
        some ((lookupKV m2 (cf + 1)).getD [] ++ [key]) := by
      rw [lookupKV_bucketAdd_self, if_neg hkeyb2]
    have hm3ne : ∀ f, f ≠ cf + 1 →
        lookupKV (bucketAdd m2 (cf + 1) key) f = lookupKV m2 f :=
      fun f hf => lookupKV_bucketAdd_ne hf
    have hm3N : (kvKeys (bucketAdd m2 (cf + 1) key)).Nodup := nodup_kvKeys_bucketAdd hC
    -- a characterization of every bucket of the updated frequency map
    have hbchar : ∀ f bb, (f, bb) ∈ bucketAdd m2 (cf + 1) key →
        (f = cf + 1 ∧ bb = (lookupKV m2 (cf + 1)).getD [] ++ [key]) ∨
        (f ≠ cf + 1 ∧ lookupKV m2 f = some bb) := by
      intro f bb hmem
      have hlk := (mem_iff_lookupKV hm3N).1 hmem
      by_cases hf : f = cf + 1
      · subst hf
        rw [hm3self] at hlk
        exact Or.inl ⟨rfl, (Option.some.inj hlk).symm⟩
      · rw [hm3ne f hf] at hlk
        exact Or.inr ⟨hf, hlk⟩
    have hb2cases : ∀ bb, lookupKV m2 (cf + 1) = some bb →
        (cf + 1, bb) ∈ s.aux.freq_map := by
      intro bb hbb
      rw [hl2cf1] at hbb
      exact lookupKV_mem hbb
    refine ⟨⟨?_, ?_, ?_, ?_, ?_, ?_, ?_, ?_⟩, ?_, ?_, ?_⟩
    · show (kvKeys (modKV s.cache key (touch now))).Nodup
      rw [kvKeys_modKV]
      exact hcN
    · exact nodup_kvKeys_setKV hfkN
    · exact hm3N
    · -- buckets have no duplicates
      intro f bb hmem
      rcases hbchar f bb hmem with ⟨rfl, rfl⟩ | ⟨hf, hlk⟩
      · have hb2N : ((lookupKV m2 (cf + 1)).getD []).Nodup := by
          cases hl : lookupKV m2 (cf + 1) with
          | none => simp
          | some b' =>
            have := hbN _ _ (hb2cases b' hl)
            simpa using this
        simp [List.nodup_append, hb2N, hkeyb2]
      · by_cases hfc : f = cf
        · subst hfc
          rw [hA] at hlk
          by_cases hEm : (b.erase key).isEmpty
          · rw [if_pos hEm] at hlk
            exact absurd hlk (by simp)
          · rw [if_neg hEm] at hlk
            have : bb = b.erase key := (Option.some.inj hlk).symm
            subst this
            exact hbNodup.erase key
        · rw [hB f hfc] at hlk
          exact hbN f bb (lookupKV_mem hlk)
    · -- buckets are non-empty
      intro f bb hmem
      rcases hbchar f bb hmem with ⟨rfl, rfl⟩ | ⟨hf, hlk⟩
      · simp
      · by_cases hfc : f = cf
        · subst hfc
          rw [hA] at hlk
          by_cases hEm : (b.erase key).isEmpty
          · rw [if_pos hEm] at hlk
            exact absurd hlk (by simp)
          · rw [if_neg hEm] at hlk
            have : bb = b.erase key := (Option.some.inj hlk).symm
            subst this
            intro hnil
            rw [hnil] at hEm
            simp at hEm
        · rw [hB f hfc] at hlk
          exact hbNe f bb (lookupKV_mem hlk)
    · -- frequencies are positive
      intro f bb hmem
      rcases hbchar f bb hmem with ⟨rfl, rfl⟩ | ⟨hf, hlk⟩
      · omega
      · by_cases hfc : f = cf
        · subst hfc
          exact hcfPos
        · rw [hB f hfc] at hlk
          exact hfPos f bb (lookupKV_mem hlk)
    · -- bucket membership matches the frequency assignment
      intro k f
      by_cases hkk : k = key
      · subst hkk
        rw [lookupKV_setKV_self]
        by_cases hf : f = cf + 1
        · subst hf
          constructor
          · intro _
            rfl
          · intro _
            exact ⟨(lookupKV m2 (cf + 1)).getD [] ++ [k], hm3self, by simp⟩
        · constructor
          · rintro ⟨bb, hlk, hkmem⟩
            rw [hm3ne f hf] at hlk
            exfalso
            by_cases hfc : f = cf
            · subst hfc
              rw [hA] at hlk
              by_cases hEm : (b.erase k).isEmpty
              · rw [if_pos hEm] at hlk
                simp at hlk
              · rw [if_neg hEm] at hlk
                have : bb = b.erase k := (Option.some.inj hlk).symm
                subst this
                exact hbNodup.not_mem_erase hkmem
            · rw [hB f hfc] at hlk
              have : lookupKV s.aux.freq_key k = some f := (hinB k f).1 ⟨bb, hlk, hkmem⟩
              rw [hcf] at this
              exact hfc (Option.some.inj this).symm
          · intro hsome
            exact absurd (Option.some.inj hsome) (fun he => hf he.symm)
      · rw [lookupKV_setKV_ne hkk]
        by_cases hf : f = cf + 1
        · subst hf
          constructor
          · rintro ⟨bb, hlk, hkmem⟩
            rw [hm3self] at hlk
            have hbb : bb = (lookupKV m2 (cf + 1)).getD [] ++ [key] :=
              (Option.some.inj hlk).symm
            subst hbb
            rcases List.mem_append.1 hkmem with hk2 | hk2
            · cases hl : lookupKV s.aux.freq_map (cf + 1) with
              | none =>
                rw [hl2cf1, hl] at hk2
                simp at hk2
              | some b' =>
                refine (hinB k (cf + 1)).1 ⟨b', hl, ?_⟩
                rw [hl2cf1, hl] at hk2
                simpa using hk2
            · exact absurd (List.mem_singleton.1 hk2) hkk
          · intro hsome
            obtain ⟨bb, hlk, hkmem⟩ := (hinB k (cf + 1)).2 hsome
            refine ⟨(lookupKV m2 (cf + 1)).getD [] ++ [key], hm3self, ?_⟩
            refine List.mem_append.2 (Or.inl ?_)
            rw [hl2cf1, hlk]
            simpa using hkmem
        · constructor
          · rintro ⟨bb, hlk, hkmem⟩
            rw [hm3ne f hf] at hlk
            by_cases hfc : f = cf
            · rw [hfc] at hlk
              rw [hA] at hlk
              by_cases hEm : (b.erase key).isEmpty
              · rw [if_pos hEm] at hlk
                simp at hlk
              · rw [if_neg hEm] at hlk
                have hbb : bb = b.erase key := (Option.some.inj hlk).symm
                rw [hbb] at hkmem
                rw [hfc]
                exact (hinB k cf).1 ⟨b, hb, (List.mem_erase_of_ne hkk).1 hkmem⟩
            · rw [hB f hfc] at hlk
              exact (hinB k f).1 ⟨bb, hlk, hkmem⟩
          · intro hsome
            obtain ⟨bb, hlk, hkmem⟩ := (hinB k f).2 hsome
            by_cases hfc : f = cf
            · rw [hfc] at hlk ⊢
              have hbb : bb = b := by
                rw [hb] at hlk
                exact Option.some.inj hlk.symm
              rw [hbb] at hkmem
              have hker : k ∈ b.erase key := (List.mem_erase_of_ne hkk).2 hkmem
              have hEm : ¬(b.erase key).isEmpty := by
                intro hEm
                rw [List.isEmpty_iff] at hEm
                rw [hEm] at hker
                simp at hker
              refine ⟨b.erase key, ?_, hker⟩
              rw [hm3ne cf hcfne1, hA, if_neg hEm]
            · refine ⟨bb, ?_, hkmem⟩
              rw [hm3ne f hf, hB f hfc]
              exact hlk
    · -- `_freq_key` domain equals the cached key set
      intro k
      rw [kvKeys_setKV_mem hk1, kvKeys_modKV]
      exact hfkDom k
    · -- min_freq is zero exactly on the empty cache
      have hmf0 : mf ≠ 0 := by
        rw [hE]
        split
        · omega
        · intro h0
          exact hcne (mfZero.1 h0)
      constructor
      · intro h0
        exact absurd h0 hmf0
      · intro h0
        exact absurd h0 hcne'
    · -- min_freq bounds every active frequency
      intro f bb hmem
      show mf ≤ f
      have hmin_le_cf : s.aux.min_freq ≤ cf := mfLe cf b hbmem
      rcases hbchar f bb hmem with ⟨rfl, rfl⟩ | ⟨hf, hlk⟩
      · rw [hE]
        split
        · omega
        · omega
      · have hfm2 : f ∈ kvKeys m2 := mem_kvKeys_of_lookupKV hlk
        have hffm : f ∈ kvKeys s.aux.freq_map := hD f hfm2
        obtain ⟨bb', hbb'⟩ := mem_kvKeys.1 hffm
        have hle : s.aux.min_freq ≤ f := mfLe f bb' hbb'
        rw [hE]
        split
        next hcond =>
          obtain ⟨hEm, hcfmin⟩ := hcond
          have hfnecf : f ≠ cf := by
            intro he
            exact (hG hEm) (he ▸ hfm2)
          omega
        next => exact hle
    · -- min_freq is an active frequency on a non-empty cache
      intro _
      rw [hE]
      split
      next hcond =>
        exact mem_kvKeys_bucketAdd_self
      next hcond =>
        have hmin_mem : s.aux.min_freq ∈ kvKeys s.aux.freq_map := mfMem hcne
        rw [not_and_or] at hcond
        by_cases hminc : s.aux.min_freq = cf + 1
        · rw [hminc]
          exact mem_kvKeys_bucketAdd_self
        · rw [mem_kvKeys_bucketAdd_iff]
          refine Or.inr ?_
          by_cases hmincf : s.aux.min_freq = cf
          · rcases hcond with hEm | hcfmin
            · rw [hmincf]
              refine mem_kvKeys_of_lookupKV (v := b.erase key) ?_
              rw [hA, if_neg hEm]
            · exact absurd hmincf.symm hcfmin
          · exact hKeep _ hmin_mem hmincf
  by_cases hE : (b.erase key).isEmpty
  · have hgoal : lfuOnAccess key now s =
        { capacity := s.capacity, cache := modKV s.cache key (touch now),
          stats := s.stats,
          aux := { freq_map := bucketAdd (eraseKV (bucketDel s.aux.freq_map cf key) cf) (cf + 1) key,
                   freq_key := setKV s.aux.freq_key key (cf + 1),
                   min_freq := if cf = s.aux.min_freq then cf + 1 else s.aux.min_freq } } := by
      simp only [lfuOnAccess, lfuIncrement, hcf]
      rw [hDel]
      simp [hE]
    rw [hgoal]
    refine main _ _ ?_ ?_ ?_ ?_ ?_ ?_ ?_
    · rw [if_pos hE]
      exact lookupKV_eraseKV_self hm1N
    · intro f hf
      rw [lookupKV_eraseKV_ne hf, lookupKV_bucketDel_ne hf]
    · exact nodup_kvKeys_eraseKV hm1N
    · intro f hf
      rw [kvKeys_eraseKV, kvKeys_bucketDel] at hf
      exact List.mem_of_mem_erase hf
    · simp [hE]
    · intro _
      rw [kvKeys_eraseKV, kvKeys_bucketDel]
      exact hfmN.not_mem_erase
    · intro f hf hfc
      rw [kvKeys_eraseKV, kvKeys_bucketDel]
      exact ((hfmN).mem_erase_iff).2 ⟨hfc, hf⟩
  · have hgoal : lfuOnAccess key now s =
        { capacity := s.capacity, cache := modKV s.cache key (touch now),
          stats := s.stats,
          aux := { freq_map := bucketAdd (bucketDel s.aux.freq_map cf key) (cf + 1) key,
                   freq_key := setKV s.aux.freq_key key (cf + 1),
                   min_freq := s.aux.min_freq } } := by
      simp only [lfuOnAccess, lfuIncrement, hcf]
      rw [hDel]
      simp [hE]
    rw [hgoal]
    refine main _ _ ?_ ?_ ?_ ?_ ?_ ?_ ?_
    · rw [if_neg hE]
      exact hDel
    · intro f hf
      exact lookupKV_bucketDel_ne hf
    · exact hm1N
    · intro f hf
      rw [kvKeys_bucketDel] at hf
      exact hf
    · rw [if_neg]
      intro hcond
      exact hE hcond.1
    · intro hEm
      exact absurd hEm hE
    · intro f hf hfc
      rw [kvKeys_bucketDel]
      exact hf

theorem lfuWF_congr {s s' : PState LfuAux} (hk : kvKeys s'.cache = kvKeys s.cache)
    (ha : s'.aux = s.aux) (h : LfuWF s) : LfuWF s' := by
  obtain ⟨⟨hcN, hfkN, hfmN, hbN, hbNe, hfPos, hinB, hfkDom⟩, mfZero, mfLe, mfMem⟩ := h
  have hnil : s'.cache = [] ↔ s.cache = [] := by
    constructor
    · intro he
      have : kvKeys s.cache = [] := by
        rw [← hk, he]
        rfl
      cases hcc : s.cache with
      | nil => rfl
      | cons p t =>
        rw [hcc] at this
        simp at this
    · intro he
      have h2 : kvKeys s'.cache = [] := by
        rw [hk, he]
        rfl
      cases hcc : s'.cache with
      | nil => rfl
      | cons p t =>
        rw [hcc] at h2
        simp at h2
  refine ⟨⟨?_, ?_, ?_, ?_, ?_, ?_, ?_, ?_⟩, ?_, ?_, ?_⟩
  · rw [hk]
    exact hcN
  · rw [ha]
    exact hfkN
  · rw [ha]
    exact hfmN
  · rw [ha]
    exact hbN
  · rw [ha]
    exact hbNe
  · rw [ha]
    exact hfPos
  · rw [ha]
    exact hinB
  · intro k
    rw [ha, hk]
    exact hfkDom k
  · rw [ha, hnil]
    exact mfZero
  · rw [ha]
    exact mfLe
  · intro hne
    rw [ha]
    exact mfMem (fun he => hne (hnil.2 he))

theorem foldl_min_spec (t : List Nat) : ∀ a : Nat,
    (t.foldl min a ∈ a :: t) ∧ (∀ b ∈ a :: t, t.foldl min a ≤ b) := by
  induction t with
  | nil =>
    intro a
    refine ⟨List.mem_cons_self _ _, ?_⟩
    intro b hb
    rcases List.mem_cons.1 hb with rfl | hb
    · exact le_refl _
    · simp at hb
  | cons c t' ih =>
    intro a
    have hSpec := ih (min a c)
    constructor
    · rcases List.mem_cons.1 hSpec.1 with hm | hm
      · rw [List.foldl_cons, hm]
        rcases le_total a c with hac | hac
        · rw [min_eq_left hac]
          exact List.mem_cons_self _ _
        · rw [min_eq_right hac]
          exact List.mem_cons_of_mem _ (List.mem_cons_self _ _)
      · rw [List.foldl_cons]
        exact List.mem_cons_of_mem _ (List.mem_cons_of_mem _ hm)
    · intro b hb
      rw [List.foldl_cons]
      rcases List.mem_cons.1 hb with hba | hb2
      · rw [hba]
        exact le_trans (hSpec.2 _ (List.mem_cons_self _ _)) (min_le_left a c)
      · rcases List.mem_cons.1 hb2 with hbc | hb3
        · rw [hbc]
          exact le_trans (hSpec.2 _ (List.mem_cons_self _ _)) (min_le_right a c)
        · exact hSpec.2 _ (List.mem_cons_of_mem _ hb3)

theorem min?_spec {l : List Nat} (h : l ≠ []) :
    ∃ a, l.min? = some a ∧ a ∈ l ∧ ∀ b ∈ l, a ≤ b := by
  cases l with
  | nil => exact absurd rfl h
  | cons x t =>
    refine ⟨t.foldl min x, rfl, (foldl_min_spec t x).1, (foldl_min_spec t x).2⟩

theorem lfu_insert_wf {s : PState LfuAux} {now key : Nat} {v : Val} {sz : Nat}
    (hcore : LfuCore s) (hkey : key ∉ kvKeys s.cache) :
    LfuWF (insertEntry lfuHooks now key v sz s) := by
  obtain ⟨hcN, hfkN, hfmN, hbN, hbNe, hfPos, hinB, hfkDom⟩ := hcore
  have hkfk : key ∉ kvKeys s.aux.freq_key := fun hm => hkey ((hfkDom key).1 hm)
  have hnotb : ∀ f bb, lookupKV s.aux.freq_map f = some bb → key ∉ bb := by
    intro f bb hlk hkm
    have : lookupKV s.aux.freq_key key = some f := (hinB key f).1 ⟨bb, hlk, hkm⟩
    exact hkfk (mem_kvKeys_of_lookupKV this)
  have hkeyb1 : key ∉ (lookupKV s.aux.freq_map 1).getD [] := by
    cases hl : lookupKV s.aux.freq_map 1 with
    | none => simp
    | some b' =>
      intro hkm
      exact hnotb 1 b' hl (by simpa using hkm)
  have hm3self : lookupKV (bucketAdd s.aux.freq_map 1 key) 1 =
      some ((lookupKV s.aux.freq_map 1).getD [] ++ [key]) := by
    rw [lookupKV_bucketAdd_self, if_neg hkeyb1]
  have hm3ne : ∀ f, f ≠ 1 →
      lookupKV (bucketAdd s.aux.freq_map 1 key) f = lookupKV s.aux.freq_map f :=
    fun f hf => lookupKV_bucketAdd_ne hf
  have hm3N : (kvKeys (bucketAdd s.aux.freq_map 1 key)).Nodup := nodup_kvKeys_bucketAdd hfmN
  have hbchar : ∀ f bb, (f, bb) ∈ bucketAdd s.aux.freq_map 1 key →
      (f = 1 ∧ bb = (lookupKV s.aux.freq_map 1).getD [] ++ [key]) ∨
      (f ≠ 1 ∧ lookupKV s.aux.freq_map f = some bb) := by
    intro f bb hmem
    have hlk := (mem_iff_lookupKV hm3N).1 hmem
    by_cases hf : f = 1
    · subst hf
      rw [hm3self] at hlk
      exact Or.inl ⟨rfl, (Option.some.inj hlk).symm⟩
    · rw [hm3ne f hf] at hlk
      exact Or.inr ⟨hf, hlk⟩
  show LfuWF { capacity := s.capacity,
               cache := s.cache ++ [(key, mkEntry key v now sz)],
               stats := { s.stats with current_size := (s.cache ++ [(key, mkEntry key v now sz)]).length },
               aux := { freq_map := bucketAdd s.aux.freq_map 1 key,
                        freq_key := setKV s.aux.freq_key key 1,
                        min_freq := 1 } }
  refine ⟨⟨?_, ?_, ?_, ?_, ?_, ?_, ?_, ?_⟩, ?_, ?_, ?_⟩
  · rw [kvKeys_append]
    simp [List.nodup_append, hcN, hkey]
  · exact nodup_kvKeys_setKV hfkN
  · exact hm3N
  · intro f bb hmem
    rcases hbchar f bb hmem with ⟨rfl, rfl⟩ | ⟨hf, hlk⟩
    · have hb1N : ((lookupKV s.aux.freq_map 1).getD []).Nodup := by
        cases hl : lookupKV s.aux.freq_map 1 with
        | none => simp
        | some b' =>
          have := hbN _ _ (lookupKV_mem hl)
          simpa using this
      simp [List.nodup_append, hb1N, hkeyb1]
    · exact hbN f bb (lookupKV_mem hlk)
  · intro f bb hmem
    rcases hbchar f bb hmem with ⟨rfl, rfl⟩ | ⟨hf, hlk⟩
    · simp
    · exact hbNe f bb (lookupKV_mem hlk)
  · intro f bb hmem
    rcases hbchar f bb hmem with ⟨rfl, rfl⟩ | ⟨hf, hlk⟩
    · omega
    · exact hfPos f bb (lookupKV_mem hlk)
  · intro k f
    by_cases hkk : k = key
    · subst hkk
      rw [lookupKV_setKV_self]
      by_cases hf : f = 1
      · subst hf
        constructor
        · intro _
          rfl
        · intro _
          exact ⟨(lookupKV s.aux.freq_map 1).getD [] ++ [k], hm3self, by simp⟩
      · constructor
        · rintro ⟨bb, hlk, hkmem⟩
          rw [hm3ne f hf] at hlk
          exact absurd (hnotb f bb hlk) (not_not_intro hkmem)
        · intro hsome
          exact absurd (Option.some.inj hsome) (fun he => hf he.symm)
    · rw [lookupKV_setKV_ne hkk]
      by_cases hf : f = 1
      · subst hf
        constructor
        · rintro ⟨bb, hlk, hkmem⟩
          rw [hm3self] at hlk
          have hbb : bb = (lookupKV s.aux.freq_map 1).getD [] ++ [key] :=
            (Option.some.inj hlk).symm
          rw [hbb] at hkmem
          rcases List.mem_append.1 hkmem with hk2 | hk2
          · cases hl : lookupKV s.aux.freq_map 1 with
            | none =>
              rw [hl] at hk2
              simp at hk2
            | some b' =>
              refine (hinB k 1).1 ⟨b', hl, ?_⟩
              rw [hl] at hk2
              simpa using hk2
          · exact absurd (List.mem_singleton.1 hk2) hkk
        · intro hsome
          obtain ⟨bb, hlk, hkmem⟩ := (hinB k 1).2 hsome
          refine ⟨(lookupKV s.aux.freq_map 1).getD [] ++ [key], hm3self, ?_⟩
          refine List.mem_append.2 (Or.inl ?_)
          rw [hlk]
          simpa using hkmem
      · rw [hm3ne f hf]
        exact hinB k f
  · intro k
    rw [kvKeys_append]
    by_cases hkk : k = key
    · subst hkk
      rw [kvKeys_setKV_not_mem hkfk]
      simp
    · rw [kvKeys_setKV_not_mem hkfk]
      simp only [List.mem_append, List.mem_singleton, kvKeys_cons, kvKeys_nil,
        List.mem_cons, List.not_mem_nil, or_false]
      constructor
      · rintro (hm | hm)
        · exact Or.inl ((hfkDom k).1 hm)
        · exact absurd hm hkk
      · rintro (hm | hm)
        · exact Or.inl ((hfkDom k).2 hm)
        · exact absurd hm hkk
  · constructor
    · intro h0
      exact absurd h0 one_ne_zero
    · intro h0
      exact absurd h0 (by simp)
  · intro f bb hmem
    rcases hbchar f bb hmem with ⟨rfl, rfl⟩ | ⟨hf, hlk⟩
    · exact le_refl 1
    · exact hfPos f bb (lookupKV_mem hlk)
  · intro _
    exact mem_kvKeys_bucketAdd_self

theorem lfu_remove_core {s : PState LfuAux} (hcore : LfuCore s)
    {key f0 : Nat} {b0 : List Key}
    (hfk : lookupKV s.aux.freq_key key = some f0)
    (hb0 : lookupKV s.aux.freq_map f0 = some b0)
    {m' : List (Nat × List Key)}
    (hm'f0 : lookupKV m' f0 = if (b0.erase key).isEmpty then none else some (b0.erase key))
    (hm'ne : ∀ f, f ≠ f0 → lookupKV m' f = lookupKV s.aux.freq_map f)
    (hm'N : (kvKeys m').Nodup)
    {c : Nat} {st : CacheStats} {mf : Nat} :
    LfuCore { capacity := c, cache := eraseKV s.cache key, stats := st,
              aux := { freq_map := m', freq_key := eraseKV s.aux.freq_key key,
                       min_freq := mf } } := by
  obtain ⟨hcN, hfkN, hfmN, hbN, hbNe, hfPos, hinB, hfkDom⟩ := hcore
  obtain ⟨b1, hb1, hkb1⟩ := (hinB key f0).2 hfk
  have hbb1 : b1 = b0 := by
    rw [hb0] at hb1
    exact Option.some.inj hb1.symm
  rw [hbb1] at hkb1
  have hb0mem : (f0, b0) ∈ s.aux.freq_map := lookupKV_mem hb0
  have hb0N : b0.Nodup := hbN _ _ hb0mem
  have hf0Pos : 0 < f0 := hfPos _ _ hb0mem
  have hbchar : ∀ f bb, (f, bb) ∈ m' →
      (f = f0 ∧ ¬(b0.erase key).isEmpty = true ∧ bb = b0.erase key) ∨
      (f ≠ f0 ∧ lookupKV s.aux.freq_map f = some bb) := by
    intro f bb hmem
    have hlk := (mem_iff_lookupKV hm'N).1 hmem
    by_cases hf : f = f0
    · subst hf
      rw [hm'f0] at hlk
      by_cases hEm : (b0.erase key).isEmpty
      · rw [if_pos hEm] at hlk
        exact absurd hlk (by simp)
      · rw [if_neg hEm] at hlk
        exact Or.inl ⟨rfl, hEm, (Option.some.inj hlk).symm⟩
    · rw [hm'ne f hf] at hlk
      exact Or.inr ⟨hf, hlk⟩
  refine ⟨?_, ?_, ?_, ?_, ?_, ?_, ?_, ?_⟩
  · show (kvKeys (eraseKV s.cache key)).Nodup
    exact nodup_kvKeys_eraseKV hcN
  · exact nodup_kvKeys_eraseKV hfkN
  · exact hm'N
  · intro f bb hmem
    rcases hbchar f bb hmem with ⟨rfl, hEm, rfl⟩ | ⟨hf, hlk⟩
    · exact hb0N.erase key
    · exact hbN f bb (lookupKV_mem hlk)
  · intro f bb hmem
    rcases hbchar f bb hmem with ⟨rfl, hEm, rfl⟩ | ⟨hf, hlk⟩
    · intro hnil
      rw [hnil] at hEm
      simp at hEm
    · exact hbNe f bb (lookupKV_mem hlk)
  · intro f bb hmem
    rcases hbchar f bb hmem with ⟨rfl, hEm, rfl⟩ | ⟨hf, hlk⟩
    · exact hf0Pos
    · exact hfPos f bb (lookupKV_mem hlk)
  · intro k f
    by_cases hkk : k = key
    · subst hkk
      rw [lookupKV_eraseKV_self hfkN]
      constructor
      · rintro ⟨bb, hlk, hkmem⟩
        exfalso
        by_cases hf : f = f0
        · subst hf
          rw [hm'f0] at hlk
          by_cases hEm : (b0.erase k).isEmpty
          · rw [if_pos hEm] at hlk
            simp at hlk
          · rw [if_neg hEm] at hlk
            have hbb : bb = b0.erase k := (Option.some.inj hlk).symm
            rw [hbb] at hkmem
            exact hb0N.not_mem_erase hkmem
        · rw [hm'ne f hf] at hlk
          have : lookupKV s.aux.freq_key k = some f := (hinB k f).1 ⟨bb, hlk, hkmem⟩
          rw [hfk] at this
          exact hf (Option.some.inj this).symm
      · intro hsome
        exact absurd hsome (by simp)
    · rw [lookupKV_eraseKV_ne hkk]
      by_cases hf : f = f0
      · subst hf
        constructor
        · rintro ⟨bb, hlk, hkmem⟩
          rw [hm'f0] at hlk
          by_cases hEm : (b0.erase key).isEmpty
          · rw [if_pos hEm] at hlk
            simp at hlk
          · rw [if_neg hEm] at hlk
            have hbb : bb = b0.erase key := (Option.some.inj hlk).symm
            rw [hbb] at hkmem
            exact (hinB k f).1 ⟨b0, hb0, (List.mem_erase_of_ne hkk).1 hkmem⟩
        · intro hsome
          obtain ⟨bb, hlk, hkmem⟩ := (hinB k f).2 hsome
          have hbb : bb = b0 := by
            rw [hb0] at hlk
            exact Option.some.inj hlk.symm
          rw [hbb] at hkmem
          have hker : k ∈ b0.erase key := (List.mem_erase_of_ne hkk).2 hkmem
          have hEm : ¬(b0.erase key).isEmpty := by
            intro hEm
            rw [List.isEmpty_iff] at hEm
            rw [hEm] at hker
            simp at hker
          refine ⟨b0.erase key, ?_, hker⟩
          rw [hm'f0, if_neg hEm]
        
      · rw [hm'ne f hf]
        exact hinB k f
  · intro k
    rw [kvKeys_eraseKV, kvKeys_eraseKV, hfkN.mem_erase_iff, hcN.mem_erase_iff]
    constructor
    · rintro ⟨hne, hk⟩
      exact ⟨hne, (hfkDom k).1 hk⟩
    · rintro ⟨hne, hk⟩
      exact ⟨hne, (hfkDom k).2 hk⟩

theorem lfu_evict_id_of_nil {s : PState LfuAux} (h : LfuWF s) (hnil : s.cache = []) :
    lfuEvict s = s := by
  have hmin0 : s.aux.min_freq = 0 := h.mfZero.2 hnil
  unfold lfuEvict
  rw [if_pos hmin0]

theorem lfu_evict_core {s : PState LfuAux} (h : LfuWF s) (hne : s.cache ≠ []) :
    LfuCore (lfuEvict s) ∧ (lfuEvict s).cache.length + 1 = s.cache.length := by
  obtain ⟨hcore, mfZero, mfLe, mfMem⟩ := h
  have hmin0 : s.aux.min_freq ≠ 0 := fun h0 => hne (mfZero.1 h0)
  have hminMem := mfMem hne
  obtain ⟨b0, hb0m⟩ := mem_kvKeys.1 hminMem
  have hlk0 : lookupKV s.aux.freq_map s.aux.min_freq = some b0 :=
    lookupKV_of_mem_nodup hcore.fmNodup hb0m
  have hb0ne : b0 ≠ [] := hcore.bNe _ _ hb0m
  obtain ⟨k0, rest, hb0eq⟩ : ∃ k0 rest, b0 = k0 :: rest := by
    cases b0 with
    | nil => exact absurd rfl hb0ne
    | cons x t => exact ⟨x, t, rfl⟩
  subst hb0eq
  have hk0fk : lookupKV s.aux.freq_key k0 = some s.aux.min_freq :=
    (hcore.inBucket k0 s.aux.min_freq).1 ⟨_, hlk0, List.mem_cons_self _ _⟩
  have hk0c : k0 ∈ kvKeys s.cache := (hcore.fkDom k0).1 (mem_kvKeys_of_lookupKV hk0fk)
  have hminK : s.aux.min_freq ∈ kvKeys s.aux.freq_map := hminMem
  have hsetN : (kvKeys (setKV s.aux.freq_map s.aux.min_freq rest)).Nodup :=
    nodup_kvKeys_setKV hcore.fmNodup
  have hsetKeys : kvKeys (setKV s.aux.freq_map s.aux.min_freq rest) = kvKeys s.aux.freq_map :=
    kvKeys_setKV_mem hminK
  have herase : (k0 :: rest).erase k0 = rest := List.erase_cons_head k0 rest
  have hgoal : lfuEvict s =
      { capacity := s.capacity,
        cache := eraseKV s.cache k0,
        stats := { s.stats with evictions := s.stats.evictions + 1, current_size := (eraseKV s.cache k0).length },
        aux := { freq_map := if rest.isEmpty then eraseKV (setKV s.aux.freq_map s.aux.min_freq rest) s.aux.min_freq else setKV s.aux.freq_map s.aux.min_freq rest,
                 freq_key := eraseKV s.aux.freq_key k0,
                 min_freq := s.aux.min_freq } } := by
    unfold lfuEvict
    rw [if_neg hmin0]
    simp only [hlk0]
  rw [hgoal]
  constructor
  · refine lfu_remove_core hcore hk0fk hlk0 ?_ ?_ ?_
    · rw [herase]
      by_cases hRE : rest.isEmpty
      · rw [if_pos hRE, if_pos hRE]
        exact lookupKV_eraseKV_self hsetN
      · rw [if_neg hRE, if_neg hRE]
        exact lookupKV_setKV_self
    · intro f hf
      by_cases hRE : rest.isEmpty
      · rw [if_pos hRE, lookupKV_eraseKV_ne hf, lookupKV_setKV_ne hf]
      · rw [if_neg hRE, lookupKV_setKV_ne hf]
    · by_cases hRE : rest.isEmpty
      · rw [if_pos hRE]
        exact nodup_kvKeys_eraseKV hsetN
      · rw [if_neg hRE]
        exact hsetN
  · show (eraseKV s.cache k0).length + 1 = s.cache.length
    exact length_eraseKV_of_mem hk0c

theorem lfu_evict_not_mem {s : PState LfuAux} {key : Nat}
    (h : key ∉ kvKeys s.cache) : key ∉ kvKeys (lfuEvict s).cache := by
  unfold lfuEvict
  split
  · exact h
  · split
    · exact h
    · exact h
    · show key ∉ kvKeys (eraseKV s.cache _)
      rw [kvKeys_eraseKV]
      intro hmem
      exact h (List.mem_of_mem_erase hmem)

theorem lfu_evict_capacity {s : PState LfuAux} : (lfuEvict s).capacity = s.capacity := by
  unfold lfuEvict
  split
  · rfl
  · split <;> rfl

theorem lfu_get_wf {s : PState LfuAux} {now key : Nat} (h : LfuWF s) :
    LfuWF (pGet lfuHooks now key s).2 := by
  cases hl : lookupKV s.cache key with
  | none =>
    refine lfuWF_congr ?_ ?_ h <;> simp [pGet, hl]
  | some e =>
    have hmem : key ∈ kvKeys s.cache := mem_kvKeys_of_lookupKV hl
    have h1 : LfuWF { s with stats := { s.stats with hits := s.stats.hits + 1 } } := by
      refine lfuWF_congr ?_ ?_ h
      · rfl
      · rfl
    have h2 := @lfu_onAccess_wf _ key now h1 hmem
    simpa [pGet, hl, lfuHooks] using h2

theorem lfu_put_wf {s : PState LfuAux} {now key : Nat} {v : Val} {sz : Nat}
    (h : LfuWF s) : LfuWF (pPut lfuHooks now key v sz s) := by
  unfold pPut
  by_cases hp : pContains s key
  · rw [if_pos hp]
    have hmem : key ∈ kvKeys s.cache := by
      rw [pContains] at hp
      exact lookupKV_isSome.1 hp
    show LfuWF (lfuOnAccess key now _)
    have h1 : LfuWF { s with
        cache := modKV s.cache key (fun e => { e with value := v, size := sz }) } := by
      refine lfuWF_congr ?_ ?_ h
      · exact kvKeys_modKV
      · rfl
    have hmem1 : key ∈ kvKeys (modKV s.cache key
        (fun e => { e with value := v, size := sz })) := by
      rw [kvKeys_modKV]
      exact hmem
    exact lfu_onAccess_wf h1 hmem1
  · rw [if_neg hp]
    have hkey : key ∉ kvKeys s.cache := by
      rw [← lookupKV_eq_none]
      rw [pContains] at hp
      exact Option.not_isSome_iff_eq_none.1 hp
    have hstep : LfuCore (if isFull s then lfuEvict s else s) ∧
        key ∉ kvKeys (if isFull s then lfuEvict s else s).cache := by
      split
      · by_cases hnil : s.cache = []
        · rw [lfu_evict_id_of_nil h hnil]
          exact ⟨h.core, hkey⟩
        · exact ⟨(lfu_evict_core h hnil).1, lfu_evict_not_mem hkey⟩
      · exact ⟨h.core, hkey⟩
    exact lfu_insert_wf hstep.1 hstep.2

theorem lfu_clear_wf {s : PState LfuAux} : LfuWF (pClear lfuHooks s) := by
  refine ⟨⟨?_, ?_, ?_, ?_, ?_, ?_, ?_, ?_⟩, ?_, ?_, ?_⟩ <;>
    simp [pClear, lfuHooks, lfuAux0]

theorem lfu_delete_wf {s : PState LfuAux} {key : Nat} (h : LfuWF s) :
    LfuWF (pDelete lfuHooks key s).2 := by
  by_cases hp : pContains s key
  · obtain ⟨hcore, mfZero, mfLe, mfMem⟩ := h
    have hmem : key ∈ kvKeys s.cache := by
      rw [pContains] at hp
      exact lookupKV_isSome.1 hp
    have hcne : s.cache ≠ [] := by
      intro he
      rw [he] at hmem
      simp at hmem
    have hmin0 : s.aux.min_freq ≠ 0 := fun h0 => hcne (mfZero.1 h0)
    obtain ⟨f, hfk⟩ : ∃ f, lookupKV s.aux.freq_key key = some f := by
      cases hl : lookupKV s.aux.freq_key key with
      | none => exact absurd ((hcore.fkDom key).2 hmem) (lookupKV_eq_none.1 hl)
      | some f => exact ⟨f, rfl⟩
    obtain ⟨b, hb, hkb⟩ := (hcore.inBucket key f).2 hfk
    have hbN : b.Nodup := hcore.bNodup _ _ (lookupKV_mem hb)
    have hshape : (pDelete lfuHooks key s).2 =
        { capacity := s.capacity,
          cache := eraseKV s.cache key,
          stats := { s.stats with current_size := (eraseKV s.cache key).length },
          aux := lfuOnDelete key s.aux } := by
      simp [pDelete, lfuHooks, hp]
    rw [hshape]
    have hdelN : (kvKeys (bucketDel s.aux.freq_map f key)).Nodup := by
      rw [kvKeys_bucketDel]
      exact hcore.fmNodup
    have hdelSelf : lookupKV (bucketDel s.aux.freq_map f key) f = some (b.erase key) := by
      rw [lookupKV_bucketDel_self, hb]
      rfl
    by_cases hEm : (b.erase key).isEmpty
    · -- the bucket empties and is deleted
      have haux : lfuOnDelete key s.aux =
          { freq_map := eraseKV (bucketDel s.aux.freq_map f key) f,
            freq_key := eraseKV s.aux.freq_key key,
            min_freq :=
              if f = s.aux.min_freq then minKeyOf (eraseKV (bucketDel s.aux.freq_map f key) f)
              else s.aux.min_freq } := by
        simp only [lfuOnDelete, hfk, hb, if_pos hkb, if_pos hEm]
      rw [haux]
      have hcoreR : LfuCore
          { capacity := s.capacity,
            cache := eraseKV s.cache key,
            stats := { s.stats with current_size := (eraseKV s.cache key).length },
            aux := { freq_map := eraseKV (bucketDel s.aux.freq_map f key) f,
                     freq_key := eraseKV s.aux.freq_key key,
                     min_freq :=
                       if f = s.aux.min_freq then
                         minKeyOf (eraseKV (bucketDel s.aux.freq_map f key) f)
                       else s.aux.min_freq } } := by
        refine lfu_remove_core hcore hfk hb ?_ ?_ ?_
        · rw [if_pos hEm]
          exact lookupKV_eraseKV_self hdelN
        · intro f' hf'
          rw [lookupKV_eraseKV_ne hf', lookupKV_bucketDel_ne hf']
        · exact nodup_kvKeys_eraseKV hdelN
      have hkeysR : kvKeys (eraseKV (bucketDel s.aux.freq_map f key) f) =
          (kvKeys s.aux.freq_map).erase f := by
        rw [kvKeys_eraseKV, kvKeys_bucketDel]
      refine ⟨hcoreR, ?_, ?_, ?_⟩
      · -- mfZero
        by_cases hfm : f = s.aux.min_freq
        · rw [if_pos hfm]
          by_cases hm' : eraseKV (bucketDel s.aux.freq_map f key) f = []
          · -- the frequency map is now empty: the cache must be empty too
            have hcache' : eraseKV s.cache key = [] := by
              cases hcc : eraseKV s.cache key with
              | nil => rfl
              | cons p t =>
                exfalso
                have hk' : p.1 ∈ kvKeys (eraseKV s.cache key) := by
                  rw [hcc]
                  exact List.mem_cons_self _ _
                rw [kvKeys_eraseKV, hcore.cacheNodup.mem_erase_iff] at hk'
                obtain ⟨hne', hk'c⟩ := hk'
                obtain ⟨f', hfk'⟩ : ∃ f', lookupKV s.aux.freq_key p.1 = some f' := by
                  cases hl : lookupKV s.aux.freq_key p.1 with
                  | none => exact absurd ((hcore.fkDom p.1).2 hk'c) (lookupKV_eq_none.1 hl)
                  | some f' => exact ⟨f', rfl⟩
                obtain ⟨bb, hbb, hkbb⟩ := (hcore.inBucket p.1 f').2 hfk'
                have hf'mem : f' ∈ kvKeys s.aux.freq_map := mem_kvKeys_of_lookupKV hbb
                have hkeysnil : (kvKeys s.aux.freq_map).erase f = [] := by
                  rw [← hkeysR, hm']
                  rfl
                have hf'f : f' = f := by
                  by_contra hne2
                  have : f' ∈ (kvKeys s.aux.freq_map).erase f :=
                    hcore.fmNodup.mem_erase_iff.2 ⟨hne2, hf'mem⟩
                  rw [hkeysnil] at this
                  simp at this
                rw [hf'f, hb] at hbb
                have hbbb : bb = b := Option.some.inj hbb.symm
                rw [hbbb] at hkbb
                have : p.1 ∈ b.erase key := (List.mem_erase_of_ne hne').2 hkbb
                rw [List.isEmpty_iff] at hEm
                rw [hEm] at this
                simp at this
            rw [hm', hcache']
            constructor
            · intro _
              rfl
            · intro _
              rfl
          · obtain ⟨a, ha?, hamem, hale⟩ := min?_spec (l := kvKeys (eraseKV (bucketDel s.aux.freq_map f key) f)) (by
              intro hknil
              apply hm'
              cases hml : eraseKV (bucketDel s.aux.freq_map f key) f with
              | nil => rfl
              | cons p t =>
                rw [hml] at hknil
                simp at hknil)
            have hmf : minKeyOf (eraseKV (bucketDel s.aux.freq_map f key) f) = a := by
              rw [minKeyOf, ha?]
              rfl
            rw [hmf]
            obtain ⟨bb, hbbm⟩ := mem_kvKeys.1 hamem
            have ha0 : 0 < a := hcoreR.fPos a bb hbbm
            have hbbne : bb ≠ [] := hcoreR.bNe a bb hbbm
            obtain ⟨k', hk'⟩ := List.exists_mem_of_ne_nil _ hbbne
            have hlkbb : lookupKV (eraseKV (bucketDel s.aux.freq_map f key) f) a = some bb :=
              lookupKV_of_mem_nodup hcoreR.fmNodup hbbm
            have hfk'k : lookupKV (eraseKV s.aux.freq_key key) k' = some a :=
              (hcoreR.inBucket k' a).1 ⟨bb, hlkbb, hk'⟩
            have hk'c : k' ∈ kvKeys (eraseKV s.cache key) :=
              (hcoreR.fkDom k').1 (mem_kvKeys_of_lookupKV hfk'k)
            have hcne' : eraseKV s.cache key ≠ [] := by
              intro he
              rw [he] at hk'c
              simp at hk'c
            constructor
            · intro h0
              exfalso
              have h0' : a = 0 := h0
              omega
            · intro h0
              exact absurd h0 hcne'
        · rw [if_neg hfm]
          have hfne : f ≠ s.aux.min_freq := hfm
          -- the min bucket survives, so the cache stays non-empty
          have hminmem := mfMem hcne
          obtain ⟨bmin, hbmin⟩ := mem_kvKeys.1 hminmem
          have hlkmin : lookupKV s.aux.freq_map s.aux.min_freq = some bmin :=
            lookupKV_of_mem_nodup hcore.fmNodup hbmin
          have hbminne : bmin ≠ [] := hcore.bNe _ _ hbmin
          obtain ⟨k', hk'⟩ := List.exists_mem_of_ne_nil _ hbminne
          have hfk'k : lookupKV s.aux.freq_key k' = some s.aux.min_freq :=
            (hcore.inBucket k' s.aux.min_freq).1 ⟨bmin, hlkmin, hk'⟩
          have hk'ne : k' ≠ key := by
            intro he
            rw [he, hfk] at hfk'k
            exact hfne (Option.some.inj hfk'k)
          have hk'c : k' ∈ kvKeys s.cache := (hcore.fkDom k').1 (mem_kvKeys_of_lookupKV hfk'k)
          have hk'c' : k' ∈ kvKeys (eraseKV s.cache key) := by
            rw [kvKeys_eraseKV, hcore.cacheNodup.mem_erase_iff]
            exact ⟨hk'ne, hk'c⟩
          have hcne' : eraseKV s.cache key ≠ [] := by
            intro he
            rw [he] at hk'c'
            simp at hk'c'
          constructor
          · intro h0
            exact absurd h0 hmin0
          · intro h0
            exact absurd h0 hcne'
      · -- mfLe
        intro f' bb hmemb
        have hf'mem : f' ∈ kvKeys (eraseKV (bucketDel s.aux.freq_map f key) f) :=
          mem_kvKeys.2 ⟨bb, hmemb⟩
        by_cases hfm : f = s.aux.min_freq
        · rw [if_pos hfm]
          obtain ⟨a, ha?, hamem, hale⟩ := min?_spec
            (l := kvKeys (eraseKV (bucketDel s.aux.freq_map f key) f)) (by
              intro hknil
              rw [hknil] at hf'mem
              simp at hf'mem)
          have hmf : minKeyOf (eraseKV (bucketDel s.aux.freq_map f key) f) = a := by
            rw [minKeyOf, ha?]
            rfl
          rw [hmf]
          exact hale f' hf'mem
        · rw [if_neg hfm]
          rw [hkeysR, hcore.fmNodup.mem_erase_iff] at hf'mem
          obtain ⟨bb', hbb'⟩ := mem_kvKeys.1 hf'mem.2
          exact mfLe f' bb' hbb'
      · -- mfMem
        intro hcne'
        by_cases hfm : f = s.aux.min_freq
        · rw [if_pos hfm]
          have hm'ne : eraseKV (bucketDel s.aux.freq_map f key) f ≠ [] := by
            intro hm'
            apply hcne'
            -- same argument as above: empty frequency map forces empty cache
            cases hcc : eraseKV s.cache key with
            | nil => rfl
            | cons p t =>
              exfalso
              have hk' : p.1 ∈ kvKeys (eraseKV s.cache key) := by
                rw [hcc]
                exact List.mem_cons_self _ _
              rw [kvKeys_eraseKV, hcore.cacheNodup.mem_erase_iff] at hk'
              obtain ⟨hne', hk'c⟩ := hk'
              obtain ⟨f', hfk'⟩ : ∃ f', lookupKV s.aux.freq_key p.1 = some f' := by
                cases hl : lookupKV s.aux.freq_key p.1 with
                | none => exact absurd ((hcore.fkDom p.1).2 hk'c) (lookupKV_eq_none.1 hl)
                | some f' => exact ⟨f', rfl⟩
              obtain ⟨bb, hbb, hkbb⟩ := (hcore.inBucket p.1 f').2 hfk'
              have hf'mem : f' ∈ kvKeys s.aux.freq_map := mem_kvKeys_of_lookupKV hbb
              have hkeysnil : (kvKeys s.aux.freq_map).erase f = [] := by
                rw [← hkeysR, hm']
                rfl
              have hf'f : f' = f := by
                by_contra hne2
                have : f' ∈ (kvKeys s.aux.freq_map).erase f :=
                  hcore.fmNodup.mem_erase_iff.2 ⟨hne2, hf'mem⟩
                rw [hkeysnil] at this
                simp at this
              rw [hf'f, hb] at hbb
              have hbbb : bb = b := Option.some.inj hbb.symm
              rw [hbbb] at hkbb
              have : p.1 ∈ b.erase key := (List.mem_erase_of_ne hne').2 hkbb
              rw [List.isEmpty_iff] at hEm
              rw [hEm] at this
              simp at this
          obtain ⟨a, ha?, hamem, hale⟩ := min?_spec
            (l := kvKeys (eraseKV (bucketDel s.aux.freq_map f key) f)) (by
              intro hknil
              apply hm'ne
              cases hml : eraseKV (bucketDel s.aux.freq_map f key) f with
              | nil => rfl
              | cons p t =>
                rw [hml] at hknil
                simp at hknil)
          have hmf : minKeyOf (eraseKV (bucketDel s.aux.freq_map f key) f) = a := by
            rw [minKeyOf, ha?]
            rfl
          rw [hmf]
          exact hamem
        · rw [if_neg hfm]
          rw [hkeysR, hcore.fmNodup.mem_erase_iff]
          exact ⟨fun he => hfm he.symm, mfMem hcne⟩
    · -- the bucket keeps other keys
      have haux : lfuOnDelete key s.aux =
          { freq_map := bucketDel s.aux.freq_map f key,
            freq_key := eraseKV s.aux.freq_key key,
            min_freq := s.aux.min_freq } := by
        simp only [lfuOnDelete, hfk, hb, if_pos hkb, if_neg hEm]
      rw [haux]
      have hcoreR : LfuCore
          { capacity := s.capacity,
            cache := eraseKV s.cache key,
            stats := { s.stats with current_size := (eraseKV s.cache key).length },
            aux := { freq_map := bucketDel s.aux.freq_map f key,
                     freq_key := eraseKV s.aux.freq_key key,
                     min_freq := s.aux.min_freq } } := by
        refine lfu_remove_core hcore hfk hb ?_ ?_ ?_
        · rw [if_neg hEm]
          exact hdelSelf
        · intro f' hf'
          exact lookupKV_bucketDel_ne hf'
        · exact hdelN
      have hbene : b.erase key ≠ [] := by
        intro he
        rw [List.isEmpty_iff] at hEm
        exact hEm he
      obtain ⟨k', hk'⟩ := List.exists_mem_of_ne_nil _ hbene
      have hfk'k : lookupKV (eraseKV s.aux.freq_key key) k' = some f :=
        (hcoreR.inBucket k' f).1 ⟨b.erase key, hdelSelf, hk'⟩
      have hk'c : k' ∈ kvKeys (eraseKV s.cache key) :=
        (hcoreR.fkDom k').1 (mem_kvKeys_of_lookupKV hfk'k)
      have hcne' : eraseKV s.cache key ≠ [] := by
        intro he
        rw [he] at hk'c
        simp at hk'c
      refine ⟨hcoreR, ?_, ?_, ?_⟩
      · constructor
        · intro h0
          exact absurd h0 hmin0
        · intro h0
          exact absurd h0 hcne'
      · intro f' bb hmemb
        have hf'mem : f' ∈ kvKeys (bucketDel s.aux.freq_map f key) := mem_kvKeys.2 ⟨bb, hmemb⟩
        rw [kvKeys_bucketDel] at hf'mem
        obtain ⟨bb', hbb'⟩ := mem_kvKeys.1 hf'mem
        exact mfLe f' bb' hbb'
      · intro _
        rw [kvKeys_bucketDel]
        exact mfMem hcne
  · have hshape : (pDelete lfuHooks key s).2 = s := by
      simp [pDelete, hp]
    rw [hshape]
    exact h

theorem lfu_applyOp_inv {s : PState LfuAux} {op : Op}
    (h : LfuWF s ∧ s.cache.length ≤ s.capacity ∧ 0 < s.capacity) :
    LfuWF (applyOp lfuHooks op s) ∧
      (applyOp lfuHooks op s).cache.length ≤ (applyOp lfuHooks op s).capacity ∧
      0 < (applyOp lfuHooks op s).capacity := by
  obtain ⟨hwf, hsize, hcap⟩ := h
  cases op with
  | get now key =>
    refine ⟨lfu_get_wf hwf, ?_, ?_⟩
    · show (pGet lfuHooks now key s).2.cache.length ≤ (pGet lfuHooks now key s).2.capacity
      cases hl : lookupKV s.cache key with
      | none => simpa [pGet, hl] using hsize
      | some e => simpa [pGet, hl, lfuHooks, lfuOnAccess, length_modKV] using hsize
    · show 0 < (pGet lfuHooks now key s).2.capacity
      cases hl : lookupKV s.cache key with
      | none => simpa [pGet, hl] using hcap
      | some e => simpa [pGet, hl, lfuHooks, lfuOnAccess] using hcap
  | put now key v sz =>
    refine ⟨lfu_put_wf hwf, ?_, ?_⟩
    · show (pPut lfuHooks now key v sz s).cache.length ≤ (pPut lfuHooks now key v sz s).capacity
      unfold pPut
      by_cases hp : pContains s key
      · rw [if_pos hp]
        show (lfuOnAccess key now _).cache.length ≤ (lfuOnAccess key now _).capacity
        simp only [lfuOnAccess]
        simpa [length_modKV] using hsize
      · rw [if_neg hp]
        by_cases hf : isFull s
        · rw [if_pos hf]
          have hne : s.cache ≠ [] := by
            intro he
            rw [isFull, currentSize, he] at hf
            simp at hf
            omega
          have := (lfu_evict_core hwf hne).2
          show ((lfuEvict s).cache ++ [(key, _)]).length ≤ (lfuEvict s).capacity
          rw [List.length_append, lfu_evict_capacity]
          simp only [List.length_singleton]
          omega
        · rw [if_neg hf]
          have : s.cache.length < s.capacity := by
            rw [isFull, currentSize] at hf
            simp at hf
            omega
          show (s.cache ++ [(key, _)]).length ≤ s.capacity
          rw [List.length_append]
          simp only [List.length_singleton]
          omega
    · show 0 < (pPut lfuHooks now key v sz s).capacity
      unfold pPut
      by_cases hp : pContains s key
      · rw [if_pos hp]
        show 0 < (lfuOnAccess key now _).capacity
        simpa [lfuOnAccess] using hcap
      · rw [if_neg hp]
        by_cases hf : isFull s
        · rw [if_pos hf]
          show 0 < (lfuEvict s).capacity
          rw [lfu_evict_capacity]
          exact hcap
        · rw [if_neg hf]
          exact hcap
  | del key =>
    refine ⟨lfu_delete_wf hwf, ?_, ?_⟩
    · show (pDelete lfuHooks key s).2.cache.length ≤ (pDelete lfuHooks key s).2.capacity
      by_cases hp : pContains s key
      · have : (pDelete lfuHooks key s).2.cache = eraseKV s.cache key ∧
            (pDelete lfuHooks key s).2.capacity = s.capacity := by
          constructor <;> simp [pDelete, lfuHooks, hp]
        rw [this.1, this.2]
        exact le_trans length_eraseKV_le hsize
      · have : (pDelete lfuHooks key s).2 = s := by
          simp [pDelete, hp]
        rw [this]
        exact hsize
    · show 0 < (pDelete lfuHooks key s).2.capacity
      by_cases hp : pContains s key
      · have : (pDelete lfuHooks key s).2.capacity = s.capacity := by
          simp [pDelete, lfuHooks, hp]
        rw [this]
        exact hcap
      · have : (pDelete lfuHooks key s).2 = s := by
          simp [pDelete, hp]
        rw [this]
        exact hcap
  | clear =>
    exact ⟨lfu_clear_wf, by simp [applyOp, pClear], by simpa [applyOp, pClear] using hcap⟩
  | resetStats =>
    refine ⟨?_, by simpa [applyOp, pResetStats] using hsize,
      by simpa [applyOp, pResetStats] using hcap⟩
    show LfuWF (pResetStats s)
    refine lfuWF_congr ?_ ?_ hwf
    · rfl
    · rfl

theorem lfu_runOps_inv {ops : List Op} {s : PState LfuAux}
    (h : LfuWF s ∧ s.cache.length ≤ s.capacity ∧ 0 < s.capacity) :
    LfuWF (runOps lfuHooks ops s) ∧
      (runOps lfuHooks ops s).cache.length ≤ (runOps lfuHooks ops s).capacity ∧
      0 < (runOps lfuHooks ops s).capacity := by
  induction ops generalizing s with
  | nil => exact h
  | cons op rest ih => exact ih (lfu_applyOp_inv h)

end LfuInv

/-!
Policy-level assembly: the per-variant invariants give one invariant for
every policy instance, preserved by every public operation.
-/

section PolicyInv

theorem lfu_init_wf {C : Nat} : LfuWF (pInit C lfuAux0) := by
  refine ⟨⟨?_, ?_, ?_, ?_, ?_, ?_, ?_, ?_⟩, ?_, ?_, ?_⟩ <;> simp [pInit, lfuAux0]

theorem Policy.inv_init0 {k : PolicyKind} {C : Nat} (hC : 0 < C) :
    (Policy.init0 k C).Inv := by
  cases k with
  | fifo =>
    refine ⟨⟨?_, ?_, ?_⟩, ?_, ?_⟩ <;> simp [Policy.init0, pInit, hC]
  | lru =>
    refine ⟨⟨?_, ?_, ?_⟩, ?_, ?_⟩ <;> simp [Policy.init0, pInit, hC]
  | lfu =>
    refine ⟨lfu_init_wf, ?_, ?_⟩ <;> simp [Policy.init0, pInit, hC]

theorem Policy.inv_applyOp {p : Policy} {op : Op} (h : p.Inv) :
    (Policy.applyOp op p).Inv := by
  cases p with
  | fifo s => exact fifo_applyOp_inv h
  | lru s => exact lru_applyOp_inv h
  | lfu s => exact lfu_applyOp_inv h

theorem Policy.inv_run {ops : List Op} {p : Policy} (h : p.Inv) :
    (Policy.run ops p).Inv := by
  induction ops generalizing p with
  | nil => exact h
  | cons op rest ih => exact ih (Policy.inv_applyOp h)

theorem pApplyOp_capacity {Aux : Type} {H : Hooks Aux}
    (hev : ∀ s : PState Aux, (H.evict s).capacity = s.capacity)
    (hac : ∀ (k now : Nat) (s : PState Aux), (H.onAccess k now s).capacity = s.capacity)
    (hin : ∀ (k : Nat) (s : PState Aux), (H.onInsert k s).capacity = s.capacity)
    (hup : ∀ (k now : Nat) (s : PState Aux), (H.onUpdate k now s).capacity = s.capacity)
    (hdel : ∀ (k : Nat) (s : PState Aux), (H.onDelete k s).capacity = s.capacity)
    {op : Op} {s : PState Aux} : (applyOp H op s).capacity = s.capacity := by
  cases op with
  | get now key =>
    show (pGet H now key s).2.capacity = s.capacity
    cases hl : lookupKV s.cache key with
    | none => simp [pGet, hl]
    | some e =>
      simp only [pGet, hl]
      exact hac key now _
  | put now key v sz =>
    show (pPut H now key v sz s).capacity = s.capacity
    unfold pPut
    by_cases hp : pContains s key
    · rw [if_pos hp]
      exact hup key now _
    · rw [if_neg hp]
      show (H.onInsert key _).capacity = s.capacity
      rw [hin key _]
      show (if isFull s then H.evict s else s).capacity = s.capacity
      split
      · exact hev s
      · rfl
  | del key =>
    show (pDelete H key s).2.capacity = s.capacity
    unfold pDelete
    by_cases hp : pContains s key
    · rw [if_pos hp]
      exact hdel key s
    · rw [if_neg hp]
  | clear => rfl
  | resetStats => rfl

theorem Policy.applyOp_capacity {p : Policy} {op : Op} :
    (Policy.applyOp op p).capacity = p.capacity := by
  cases p with
  | fifo s =>
    refine CacheSystem.pApplyOp_capacity ?_ ?_ ?_ ?_ ?_
    · intro s
      exact fifo_evict_capacity
    · intro k now s
      rfl
    · intro k s
      rfl
    · intro k now s
      rfl
    · intro k s
      rfl
  | lru s =>
    refine CacheSystem.pApplyOp_capacity ?_ ?_ ?_ ?_ ?_
    · intro s
      exact lru_evict_capacity
    · intro k now s
      show (lruOnAccess k now s).capacity = s.capacity
      unfold lruOnAccess
      split <;> rfl
    · intro k s
      rfl
    · intro k now s
      show (lruOnAccess k now s).capacity = s.capacity
      unfold lruOnAccess
      split <;> rfl
    · intro k s
      show (if k ∈ s.aux then { s with aux := s.aux.erase k } else s).capacity = s.capacity
      split <;> rfl
  | lfu s =>
    refine CacheSystem.pApplyOp_capacity ?_ ?_ ?_ ?_ ?_
    · intro s
      exact lfu_evict_capacity
    · intro k now s
      rfl
    · intro k s
      rfl
    · intro k now s
      rfl
    · intro k s
      rfl

theorem Policy.run_capacity {ops : List Op} {p : Policy} :
    (Policy.run ops p).capacity = p.capacity := by
  induction ops generalizing p with
  | nil => rfl
  | cons op rest ih =>
    show (Policy.run rest (Policy.applyOp op p)).capacity = p.capacity
    rw [ih, Policy.applyOp_capacity]

theorem Policy.init0_capacity {k : PolicyKind} {C : Nat} :
    (Policy.init0 k C).capacity = C := by
  cases k <;> rfl

end PolicyInv

/-!
Evaluation lemmas shared by the claim theorems.
-/

section PolicyEval

theorem Policy.get_fst {p : Policy} {now key : Nat} :
    (Policy.get now key p).1 = Policy.observedVal p key := by
  cases p with
  | fifo s =>
    cases hl : lookupKV s.cache key <;>
      simp [Policy.get, pGet, hl, Policy.observedVal, Policy.storedVal, Policy.cache]
  | lru s =>
    cases hl : lookupKV s.cache key <;>
      simp [Policy.get, pGet, hl, Policy.observedVal, Policy.storedVal, Policy.cache]
  | lfu s =>
    cases hl : lookupKV s.cache key <;>
      simp [Policy.get, pGet, hl, Policy.observedVal, Policy.storedVal, Policy.cache]

theorem Policy.get_hits_present {p : Policy} {now key : Nat}
    (h : p.contains key = true) :
    (Policy.get now key p).2.stats.hits = p.stats.hits + 1 ∧
      (Policy.get now key p).2.stats.misses = p.stats.misses := by
  cases p with
  | fifo s =>
    rw [Policy.contains, Policy.cache] at h
    obtain ⟨e, hl⟩ := Option.isSome_iff_exists.1 h
    constructor <;> simp [Policy.get, pGet, hl, fifoHooks, Policy.stats]
  | lru s =>
    rw [Policy.contains, Policy.cache] at h
    obtain ⟨e, hl⟩ := Option.isSome_iff_exists.1 h
    constructor <;>
      · simp only [Policy.get, pGet, hl, lruHooks, Policy.stats]
        unfold lruOnAccess
        split <;> rfl
  | lfu s =>
    rw [Policy.contains, Policy.cache] at h
    obtain ⟨e, hl⟩ := Option.isSome_iff_exists.1 h
    constructor <;> simp [Policy.get, pGet, hl, lfuHooks, lfuOnAccess, Policy.stats]

theorem Policy.get_stats_absent {p : Policy} {now key : Nat}
    (h : p.contains key = false) :
    (Policy.get now key p).2.stats.hits = p.stats.hits ∧
      (Policy.get now key p).2.stats.misses = p.stats.misses + 1 := by
  cases p with
  | fifo s =>
    rw [Policy.contains, Policy.cache] at h
    have hl : lookupKV s.cache key = none := by
      cases hll : lookupKV s.cache key with
      | none => rfl
      | some e =>
        rw [hll] at h
        simp at h
    constructor <;> simp [Policy.get, pGet, hl, Policy.stats]
  | lru s =>
    rw [Policy.contains, Policy.cache] at h
    have hl : lookupKV s.cache key = none := by
      cases hll : lookupKV s.cache key with
      | none => rfl
      | some e =>
        rw [hll] at h
        simp at h
    constructor <;> simp [Policy.get, pGet, hl, Policy.stats]
  | lfu s =>
    rw [Policy.contains, Policy.cache] at h
    have hl : lookupKV s.cache key = none := by
      cases hll : lookupKV s.cache key with
      | none => rfl
      | some e =>
        rw [hll] at h
        simp at h
    constructor <;> simp [Policy.get, pGet, hl, Policy.stats]

theorem pPut_stored {Aux : Type} {H : Hooks Aux}
    (hup : ∀ (k now : Nat) (s : PState Aux),
      (lookupKV (H.onUpdate k now s).cache k).map (fun e => e.value) =
        (lookupKV s.cache k).map (fun e => e.value))
    (hin : ∀ (k : Nat) (s : PState Aux), (H.onInsert k s).cache = s.cache)
    (hev : ∀ (k : Nat) (s : PState Aux),
      k ∉ kvKeys s.cache → k ∉ kvKeys (H.evict s).cache)
    {now key : Nat} {v : Val} {sz : Nat} {s : PState Aux} :
    (lookupKV (pPut H now key v sz s).cache key).map (fun e => e.value) = some v := by
  unfold pPut
  by_cases hp : pContains s key
  · rw [if_pos hp]
    rw [pContains] at hp
    obtain ⟨e, hl⟩ := Option.isSome_iff_exists.1 hp
    show (lookupKV (H.onUpdate key now _).cache key).map _ = some v
    rw [hup]
    show (lookupKV (modKV s.cache key _) key).map _ = some v
    rw [lookupKV_modKV_self, hl]
    rfl
  · rw [if_neg hp]
    have hkey : key ∉ kvKeys s.cache := by
      rw [← lookupKV_eq_none]
      rw [pContains] at hp
      exact Option.not_isSome_iff_eq_none.1 hp
    have hkey1 : key ∉ kvKeys (if isFull s then H.evict s else s).cache := by
      split
      · exact hev key s hkey
      · exact hkey
    show (lookupKV (H.onInsert key _).cache key).map _ = some v
    rw [hin]
    show (lookupKV ((if isFull s then H.evict s else s).cache ++
      [(key, mkEntry key v now sz)]) key).map _ = some v
    rw [lookupKV_append_of_not_mem hkey1]
    simp [lookupKV, mkEntry]

theorem lru_onAccess_stored {k now : Nat} {s : PState LruAux} :
    (lookupKV (lruOnAccess k now s).cache k).map (fun e => e.value) =
      (lookupKV s.cache k).map (fun e => e.value) := by
  have hc : (lruOnAccess k now s).cache = modKV s.cache k (touch now) := by
    unfold lruOnAccess
    split <;> rfl
  rw [hc, lookupKV_modKV_self]
  cases lookupKV s.cache k <;> simp [touch]

theorem lfu_onAccess_stored {k now : Nat} {s : PState LfuAux} :
    (lookupKV (lfuOnAccess k now s).cache k).map (fun e => e.value) =
      (lookupKV s.cache k).map (fun e => e.value) := by
  show (lookupKV (modKV s.cache k (touch now)) k).map _ = _
  rw [lookupKV_modKV_self]
  cases lookupKV s.cache k <;> simp [touch]

theorem Policy.put_stored {p : Policy} {now key : Nat} {v : Val} :
    (lookupKV (Policy.put now key v p).cache key).map (fun e => e.value) = some v := by
  cases p with
  | fifo s =>
    refine pPut_stored ?_ ?_ ?_
    · intro k now s
      rfl
    · intro k s
      rfl
    · intro k s h
      exact fifo_evict_not_mem h
  | lru s =>
    refine pPut_stored ?_ ?_ ?_
    · intro k now s
      exact lru_onAccess_stored
    · intro k s
      rfl
    · intro k s h
      exact lru_evict_not_mem h
  | lfu s =>
    refine pPut_stored ?_ ?_ ?_
    · intro k now s
      exact lfu_onAccess_stored
    · intro k s
      rfl
    · intro k s h
      exact lfu_evict_not_mem h

theorem Policy.observedVal_put {p : Policy} {now key : Nat} {v : Val} :
    Policy.observedVal (Policy.put now key v p) key = v := by
  rw [Policy.observedVal, Policy.storedVal]
  rw [Policy.put_stored]
  rfl

theorem Policy.contains_put_self {p : Policy} {now key : Nat} {v : Val} :
    (Policy.put now key v p).contains key = true := by
  rw [Policy.contains]
  have h := @Policy.put_stored p now key v
  cases hl : lookupKV (Policy.put now key v p).cache key with
  | none =>
    rw [hl] at h
    simp at h
  | some e => rfl

end PolicyEval

/-!
Hierarchy traversal lemmas.
-/

section HierarchyEval

theorem hGetLoop_miss_all {now key : Nat} {L : List CacheLevel} {cum : ℚ}
    (h : ∀ lv ∈ L, Policy.observedVal lv.cache key = none) :
    hGetLoop now key L cum = (L.map (missStep now key), none) := by
  induction L generalizing cum with
  | nil => rfl
  | cons lv rest ih =>
    have hlv := h lv (List.mem_cons_self _ _)
    have hrest := @ih (cum + lv.latency_ms) (fun l hl => h l (List.mem_cons_of_mem _ hl))
    show hGetLoop now key (lv :: rest) cum = _
    simp only [hGetLoop, Policy.get_fst, hlv, hrest, missStep, List.map_cons]
    rfl

theorem hGetLoop_hit {now key n : Nat} {A B : List CacheLevel} {lvI : CacheLevel} :
    ∀ {cum : ℚ},
    (∀ lv ∈ A, Policy.observedVal lv.cache key = none) →
    Policy.observedVal lvI.cache key = some n →
    ∃ cum', hGetLoop now key (A ++ lvI :: B) cum =
      (A.map (missStep now key) ++ hitStep now key lvI :: B, some (n, A.length, cum')) := by
  induction A with
  | nil =>
    intro cum _ hI
    refine ⟨cum + lvI.latency_ms, ?_⟩
    show hGetLoop now key (lvI :: B) cum = _
    simp only [hGetLoop, Policy.get_fst, hI, hitStep, List.map_nil, List.nil_append]
    rfl
  | cons lv rest ih =>
    intro cum hA hI
    have hlv := hA lv (List.mem_cons_self _ _)
    obtain ⟨cum', hc⟩ := @ih (cum + lv.latency_ms)
      (fun l hl => hA l (List.mem_cons_of_mem _ hl)) hI
    refine ⟨cum', ?_⟩
    show hGetLoop now key (lv :: (rest ++ lvI :: B)) cum = _
    simp only [hGetLoop, Policy.get_fst, hlv, hc, missStep, List.map_cons,
      List.cons_append, List.length_cons, Option.map_some]
    rfl

theorem promoteLoop_spec {now key n : Nat} {B : List CacheLevel} :
    ∀ L : List CacheLevel,
    promoteLoop now key n (L ++ B) L.length = (L.map (promoteStep now key n) ++ B, L.length) := by
  intro L
  induction L with
  | nil =>
    show promoteLoop now key n B 0 = (B, 0)
    cases B <;> rfl
  | cons lv rest ih =>
    show promoteLoop now key n (lv :: (rest ++ B)) (rest.length + 1) = _
    simp only [promoteLoop, ih, promoteStep, List.map_cons, List.cons_append,
      List.length_cons]

end HierarchyEval

theorem fifo_init_wf {C : Nat} : fifoWF (pInit C []) :=
  ⟨by simp [pInit], by simp [pInit], fun k => by simp [pInit]⟩

theorem lru_init_wf {C : Nat} : lruWF (pInit C []) :=
  ⟨by simp [pInit], by simp [pInit], fun k => by simp [pInit]⟩

/-!
Claim theorems.
-/

/-- C1: for every policy variant constructed with capacity `C > 0` and every
sequence of public operations, `current_size ≤ C` holds after every
operation; moreover, a `put` of a new key issued when `current_size = C`
runs as exactly one eviction followed by the insert, and that eviction
frees exactly one slot. -/
theorem C1_capacity_invariant (k : PolicyKind) (C : Nat) (hC : 0 < C) (ops : List Op) :
    Policy.size (Policy.run ops (Policy.init0 k C)) ≤ C ∧
    (∀ now key v sz,
      Policy.size (Policy.run ops (Policy.init0 k C)) = C →
      Policy.contains (Policy.run ops (Policy.init0 k C)) key = false →
      Policy.applyOp (Op.put now key v sz) (Policy.run ops (Policy.init0 k C)) =
        Policy.insertNew now key v sz (Policy.evict (Policy.run ops (Policy.init0 k C))) ∧
      Policy.size (Policy.evict (Policy.run ops (Policy.init0 k C))) + 1 = C) := by
  have hInv : (Policy.run ops (Policy.init0 k C)).Inv :=
    Policy.inv_run (Policy.inv_init0 hC)
  have hcap : (Policy.run ops (Policy.init0 k C)).capacity = C := by
    rw [Policy.run_capacity, Policy.init0_capacity]
  constructor
  · cases hp : Policy.run ops (Policy.init0 k C) with
    | fifo s =>
      rw [hp] at hInv hcap
      obtain ⟨_, hsize, _⟩ := hInv
      show s.cache.length ≤ C
      rw [← hcap]
      exact hsize
    | lru s =>
      rw [hp] at hInv hcap
      obtain ⟨_, hsize, _⟩ := hInv
      show s.cache.length ≤ C
      rw [← hcap]
      exact hsize
    | lfu s =>
      rw [hp] at hInv hcap
      obtain ⟨_, hsize, _⟩ := hInv
      show s.cache.length ≤ C
      rw [← hcap]
      exact hsize
  · intro now key v sz hfull hfresh
    cases hp : Policy.run ops (Policy.init0 k C) with
    | fifo s =>
      rw [hp] at hInv hcap hfull hfresh
      obtain ⟨hwf, hsize, hcap0⟩ := hInv
      have hcap' : s.capacity = C := hcap
      have hfull2 : s.cache.length = C := hfull
      have hfresh' : pContains s key = false := hfresh
      have hfull' : isFull s = true := by
        rw [isFull, currentSize]
        simp only [decide_eq_true_eq]
        omega
      have hne : s.cache ≠ [] := by
        intro he
        rw [he] at hfull2
        simp at hfull2
        omega
      constructor
      · show Policy.fifo (pPut fifoHooks now key v sz s) = _
        unfold pPut
        rw [if_neg (by simp [hfresh']), if_pos hfull']
        rfl
      · show (fifoEvict s).cache.length + 1 = C
        rw [fifo_evict_size hwf hne]
        exact hfull2
    | lru s =>
      rw [hp] at hInv hcap hfull hfresh
      obtain ⟨hwf, hsize, hcap0⟩ := hInv
      have hcap' : s.capacity = C := hcap
      have hfull2 : s.cache.length = C := hfull
      have hfresh' : pContains s key = false := hfresh
      have hfull' : isFull s = true := by
        rw [isFull, currentSize]
        simp only [decide_eq_true_eq]
        omega
      have hne : s.cache ≠ [] := by
        intro he
        rw [he] at hfull2
        simp at hfull2
        omega
      constructor
      · show Policy.lru (pPut lruHooks now key v sz s) = _
        unfold pPut
        rw [if_neg (by simp [hfresh']), if_pos hfull']
        rfl
      · show (lruEvict s).cache.length + 1 = C
        rw [lru_evict_size hwf hne]
        exact hfull2
    | lfu s =>
      rw [hp] at hInv hcap hfull hfresh
      obtain ⟨hwf, hsize, hcap0⟩ := hInv
      have hcap' : s.capacity = C := hcap
      have hfull2 : s.cache.length = C := hfull
      have hfresh' : pContains s key = false := hfresh
      have hfull' : isFull s = true := by
        rw [isFull, currentSize]
        simp only [decide_eq_true_eq]
        omega
      have hne : s.cache ≠ [] := by
        intro he
        rw [he] at hfull2
        simp at hfull2
        omega
      constructor
      · show Policy.lfu (pPut lfuHooks now key v sz s) = _
        unfold pPut
        rw [if_neg (by simp [hfresh']), if_pos hfull']
        rfl
      · show (lfuEvict s).cache.length + 1 = C
        rw [(lfu_evict_core hwf hne).2]
        exact hfull2

/-- Witness for C1 at a concrete FIFO instance of capacity 1. -/
theorem C1_capacity_invariant_witness :
    Policy.size (Policy.run [Op.put 0 1 (some 5) 1] (Policy.init0 PolicyKind.fifo 1)) ≤ 1 ∧
    Policy.applyOp (Op.put 1 2 (some 7) 1)
        (Policy.run [Op.put 0 1 (some 5) 1] (Policy.init0 PolicyKind.fifo 1)) =
      Policy.insertNew 1 2 (some 7) 1
        (Policy.evict (Policy.run [Op.put 0 1 (some 5) 1] (Policy.init0 PolicyKind.fifo 1))) ∧
    Policy.size
        (Policy.evict (Policy.run [Op.put 0 1 (some 5) 1] (Policy.init0 PolicyKind.fifo 1))) + 1 = 1 := by
  have h := C1_capacity_invariant PolicyKind.fifo 1 (by decide) [Op.put 0 1 (some 5) 1]
  have h2 := h.2 1 2 (some 7) 1 (by decide) (by decide)
  exact ⟨h.1, h2.1, h2.2⟩

/-- C2 (amended): when a hierarchy `get` hits at level index `i` (the levels
split as `A ++ lvI :: B` with every level of `A` missing and `lvI` hitting,
so `i = A.length`), the call returns the value, every level below `i`
afterwards stores the key with the retrieved value and has its promotion
counter incremented by exactly 1, the levels beyond `i` are untouched, and
the global promotion counter is incremented by exactly `i` — one per
promoted level (not by exactly 1, as the original claim reads when `i > 1`);
a hit at level 0 (`A = []`) causes zero promotions. -/
theorem C2_promotion (now key n : Nat) (h : CacheHierarchy)
    (A B : List CacheLevel) (lvI : CacheLevel)
    (hsplit : h.levels = A ++ lvI :: B)
    (hmiss : ∀ lv ∈ A, Policy.observedVal lv.cache key = none)
    (hhit : Policy.observedVal lvI.cache key = some n) :
    (hGet now key h).1 = some n ∧
    (hGet now key h).2.total_promotions = h.total_promotions + A.length ∧
    (hGet now key h).2.levels =
      A.map (fun lv => promoteStep now key n (missStep now key lv)) ++
        hitStep now key lvI :: B ∧
    (∀ lv : CacheLevel,
      (promoteStep now key n (missStep now key lv)).stats.promotions =
        lv.stats.promotions + 1) ∧
    (∀ lv : CacheLevel,
      Policy.storedVal (promoteStep now key n (missStep now key lv)).cache key =
        some (some n)) ∧
    (hitStep now key lvI).stats.promotions = lvI.stats.promotions := by
  obtain ⟨cum', hloop⟩ := @hGetLoop_hit now key n A B lvI 0 hmiss hhit
  have hstep4 : ∀ lv : CacheLevel,
      (promoteStep now key n (missStep now key lv)).stats.promotions =
        lv.stats.promotions + 1 := by
    intro lv
    simp [promoteStep, missStep]
  have hstep5 : ∀ lv : CacheLevel,
      Policy.storedVal (promoteStep now key n (missStep now key lv)).cache key =
        some (some n) := by
    intro lv
    show Policy.storedVal (Policy.put now key (some n) _) key = some (some n)
    rw [Policy.storedVal]
    rw [Policy.put_stored]
  have hstep6 : (hitStep now key lvI).stats.promotions = lvI.stats.promotions := by
    simp [hitStep]
  cases A with
  | nil =>
    simp only [hGet, hsplit, hloop]
    rw [if_neg (by simp)]
    exact ⟨rfl, by simp, by simp, hstep4, hstep5, hstep6⟩
  | cons a A' =>
    simp only [hGet, hsplit, hloop]
    have hlen : 0 < (a :: A').length := by simp
    rw [if_pos hlen]
    have hmap : ((a :: A').map (missStep now key)).length = (a :: A').length := by
      rw [List.length_map]
    have hpl := @promoteLoop_spec now key n (hitStep now key lvI :: B)
      ((a :: A').map (missStep now key))
    rw [hmap] at hpl
    simp only [hpl]
    refine ⟨by trivial, by simp, ?_, hstep4, hstep5, hstep6⟩
    simp [List.map_map, Function.comp]

/-- C2 counterexample: on a three-level hierarchy whose only copy of key 1
sits at level index 2, a `get` promotes to both upper levels and therefore
increments the global promotion counter by 2, not by exactly 1 as the claim
states. -/
theorem C2_promotion_counterexample :
    c2Hierarchy.levels.map (fun lv => Policy.observedVal lv.cache 1) =
      [none, none, some 5] ∧
    c2Hierarchy.total_promotions = 0 ∧
    (hGet 7 1 c2Hierarchy).1 = some 5 ∧
    (hGet 7 1 c2Hierarchy).2.total_promotions = 2 ∧
    (hGet 7 1 c2Hierarchy).2.levels.map (fun lv => lv.stats.promotions) = [1, 1, 0] := by
  refine ⟨by decide, by decide, by decide, by decide, by decide⟩

/-- Witness for C2 on the same three-level hierarchy: the hit at level
index 2 promotes to levels 0 and 1 and adds exactly 2 global promotions. -/
theorem C2_promotion_witness :
    (hGet 7 1 c2Hierarchy).1 = some 5 ∧
    (hGet 7 1 c2Hierarchy).2.total_promotions = c2Hierarchy.total_promotions + 2 := by
  have h := C2_promotion 7 1 5 c2Hierarchy
    [mkLevel (Policy.init0 PolicyKind.fifo 1) "L1" 1,
     mkLevel (Policy.init0 PolicyKind.fifo 1) "L2" 2] [] (mkLevel fifoWith1 "L3" 4)
    (by decide) (by decide) (by decide)
  exact ⟨h.1, h.2.1⟩

/-- C3: hierarchy `put` is write-through: it calls `put` on every level in
level order, and immediately afterwards every level stores the key with the
written value (even when a level's `put` evicted another key); on a
hierarchy with zero levels it fails with the configuration error and
produces no updated state. -/
theorem C3_write_through (now key : Nat) (v : Val) (h : CacheHierarchy) :
    (h.levels = [] →
      hPut now key v h = Except.error "No hay niveles de caché en la jerarquía.") ∧
    (h.levels ≠ [] →
      hPut now key v h = Except.ok { h with levels := h.levels.map (fun lv => { lv with cache := Policy.put now key v lv.cache }) } ∧
      ∀ lv ∈ h.levels.map (fun lv => { lv with cache := Policy.put now key v lv.cache }),
        Policy.storedVal lv.cache key = some v) := by
  constructor
  · intro hnil
    unfold hPut
    rw [if_pos (by rw [hnil]; rfl)]
  · intro hne
    constructor
    · unfold hPut
      rw [if_neg ?_]
      intro hemp
      exact hne (List.isEmpty_iff.1 (by exact hemp))
    · intro lv hlv
      obtain ⟨lv0, hlv0, hlveq⟩ := List.mem_map.1 hlv
      rw [← hlveq]
      show Policy.storedVal (Policy.put now key v lv0.cache) key = some v
      rw [Policy.storedVal, Policy.put_stored]

/-- Witness for C3: the error on an empty hierarchy and the write-through
result on a concrete three-level hierarchy. -/
theorem C3_write_through_witness :
    hPut 3 2 (some 9) (hInit "E") =
      Except.error "No hay niveles de caché en la jerarquía." ∧
    hPut 3 2 (some 9) c2Hierarchy = Except.ok { c2Hierarchy with levels := c2Hierarchy.levels.map (fun lv => { lv with cache := Policy.put 3 2 (some 9) lv.cache }) } := by
  exact ⟨(C3_write_through 3 2 (some 9) (hInit "E")).1 rfl,
    ((C3_write_through 3 2 (some 9) c2Hierarchy).2 (by decide)).1⟩

/-- C4 (amended): `put(k, v)` immediately followed by `get(k)` returns `v`
and is counted as a hit, for every policy instance and every value; for the
hierarchy the same holds for every non-`None` value (a stored `None` is
returned but indistinguishable from a miss in the traversal, so it is
counted as a miss). -/
theorem C4_round_trip (p : Policy) (now1 now2 key : Nat) (v : Val) (h : CacheHierarchy) :
    ((Policy.get now2 key (Policy.put now1 key v p)).1 = v ∧
     (Policy.get now2 key (Policy.put now1 key v p)).2.stats.hits =
       (Policy.put now1 key v p).stats.hits + 1 ∧
     (Policy.get now2 key (Policy.put now1 key v p)).2.stats.misses =
       (Policy.put now1 key v p).stats.misses) ∧
    (h.levels ≠ [] → v ≠ none →
      ∀ h', hPut now1 key v h = Except.ok h' →
        (hGet now2 key h').1 = v ∧
        (hGet now2 key h').2.total_hits = h'.total_hits + 1 ∧
        (hGet now2 key h').2.total_misses = h'.total_misses) := by
  constructor
  · refine ⟨?_, ?_, ?_⟩
    · rw [Policy.get_fst, Policy.observedVal_put]
    · exact (Policy.get_hits_present Policy.contains_put_self).1
    · exact (Policy.get_hits_present Policy.contains_put_self).2
  · intro hne hv h' hok
    obtain ⟨n, hn⟩ : ∃ n, v = some n := by
      cases v with
      | none => exact absurd rfl hv
      | some n => exact ⟨n, rfl⟩
    have hemp : ¬ h.levels.isEmpty = true := by
      intro hemp
      exact hne (List.isEmpty_iff.1 hemp)
    have hok2 : hPut now1 key v h = Except.ok { h with levels := h.levels.map (fun lv => { lv with cache := Policy.put now1 key v lv.cache }) } := by
      unfold hPut
      rw [if_neg hemp]
    rw [hok] at hok2
    have hh' : h' = { h with levels := h.levels.map (fun lv => { lv with cache := Policy.put now1 key v lv.cache }) } :=
      Except.ok.inj hok2
    obtain ⟨lv0, rest, hlv⟩ : ∃ lv0 rest, h.levels = lv0 :: rest := by
      cases hc : h.levels with
      | nil => exact absurd hc hne
      | cons a t => exact ⟨a, t, rfl⟩
    have hsplit : h'.levels =
        ([] : List CacheLevel) ++
          ({ lv0 with cache := Policy.put now1 key v lv0.cache } : CacheLevel) ::
          rest.map (fun lv => { lv with cache := Policy.put now1 key v lv.cache }) := by
      rw [hh', hlv]
      rfl
    have hhit : Policy.observedVal
        ({ lv0 with cache := Policy.put now1 key v lv0.cache } : CacheLevel).cache key =
        some n := by
      show Policy.observedVal (Policy.put now1 key v lv0.cache) key = some n
      rw [Policy.observedVal_put, hn]
    obtain ⟨cum', hloop⟩ := @hGetLoop_hit now2 key n []
      (rest.map (fun lv => { lv with cache := Policy.put now1 key v lv.cache }))
      ({ lv0 with cache := Policy.put now1 key v lv0.cache }) 0
      (by intro lv hlv2; simp at hlv2) hhit
    simp only [hGet, hsplit, hloop]
    rw [if_neg (by simp)]
    exact ⟨hn.symm, rfl, rfl⟩

/-- C4 counterexample: on a one-level hierarchy, `put(1, None)` followed by
`get(1)` returns the stored `None` but is counted as a miss, not a hit —
the hierarchy's hit test `value is not None` cannot distinguish a stored
`None` from an absent key. -/
theorem C4_round_trip_counterexample :
    (hPut 0 1 none c4Hierarchy).toOption.map
      (fun h' => ((hGet 1 1 h').1, (hGet 1 1 h').2.total_hits, (hGet 1 1 h').2.total_misses)) =
      some (none, 0, 1) := by decide

/-- Witness for C4 on a capacity-2 FIFO policy and a one-level hierarchy,
with value 9. -/
theorem C4_round_trip_witness :
    (Policy.get 1 3 (Policy.put 0 3 (some 9) (Policy.init0 PolicyKind.fifo 2))).1 = some 9 ∧
    (hGet 1 3 ((hPut 0 3 (some 9) c4Hierarchy).toOption.getD (hInit "X"))).1 = some 9 ∧
    (hGet 1 3 ((hPut 0 3 (some 9) c4Hierarchy).toOption.getD (hInit "X"))).2.total_hits =
      ((hPut 0 3 (some 9) c4Hierarchy).toOption.getD (hInit "X")).total_hits + 1 := by
  have h := C4_round_trip (Policy.init0 PolicyKind.fifo 2) 0 1 3 (some 9) c4Hierarchy
  have h2 := h.2 (by decide) (by decide)
    ((hPut 0 3 (some 9) c4Hierarchy).toOption.getD (hInit "X")) (by rfl)
  exact ⟨h.1.1, h2.1, h2.2.1⟩

theorem lfu_increment_freq {a : LfuAux} {key cf : Nat}
    (hcf : lookupKV a.freq_key key = some cf) :
    lookupKV (lfuIncrement key a).freq_key key = some (cf + 1) := by
  simp only [lfuIncrement, hcf]
  split
  · exact lookupKV_setKV_self
  · exact lookupKV_setKV_self

theorem lfu_insert_fresh_freq {s1 : PState LfuAux} {now key : Nat} {v : Val} {sz : Nat}
    (hcore : LfuCore s1) (hkey : key ∉ kvKeys s1.cache) :
    getKeyFrequency (insertEntry lfuHooks now key v sz s1) key = some 1 ∧
    ((lookupKV (insertEntry lfuHooks now key v sz s1).aux.freq_map 1).getD []).getLast? = some key ∧
    (insertEntry lfuHooks now key v sz s1).aux.min_freq = 1 := by
  refine ⟨?_, ?_, rfl⟩
  · show lookupKV (setKV s1.aux.freq_key key 1) key = some 1
    exact lookupKV_setKV_self
  · have hkb : key ∉ (lookupKV s1.aux.freq_map 1).getD [] := by
      cases hl : lookupKV s1.aux.freq_map 1 with
      | none => simp
      | some b =>
        intro hkm
        have hfk : lookupKV s1.aux.freq_key key = some 1 :=
          (hcore.inBucket key 1).1 ⟨b, hl, by simpa using hkm⟩
        exact hkey ((hcore.fkDom key).1 (mem_kvKeys_of_lookupKV hfk))
    show ((lookupKV (bucketAdd s1.aux.freq_map 1 key) 1).getD []).getLast? = some key
    rw [lookupKV_bucketAdd_self, if_neg hkb]
    simp

theorem lfu_fresh_insert_spec {s : PState LfuAux} {now key : Nat} {v : Val} {sz : Nat}
    (h : LfuWF s) (hkey : key ∉ kvKeys s.cache) :
    getKeyFrequency (pPut lfuHooks now key v sz s) key = some 1 ∧
    ((lookupKV (pPut lfuHooks now key v sz s).aux.freq_map 1).getD []).getLast? = some key ∧
    (pPut lfuHooks now key v sz s).aux.min_freq = 1 := by
  have hpc : ¬ pContains s key = true := by
    rw [pContains, lookupKV_eq_none.2 hkey]
    simp
  have hput : pPut lfuHooks now key v sz s =
      insertEntry lfuHooks now key v sz (if isFull s then lfuEvict s else s) := by
    unfold pPut
    rw [if_neg hpc]
    rfl
  rw [hput]
  by_cases hF : isFull s = true
  · rw [if_pos hF]
    by_cases hne : s.cache = []
    · rw [lfu_evict_id_of_nil h hne]
      exact lfu_insert_fresh_freq h.core hkey
    · exact lfu_insert_fresh_freq (lfu_evict_core h hne).1 (lfu_evict_not_mem hkey)
  · rw [if_neg hF]
    exact lfu_insert_fresh_freq h.core hkey

theorem lfu_access_freq_spec {s : PState LfuAux} {now key : Nat} {v : Val} {sz : Nat}
    (h : LfuWF s) (hm : key ∈ kvKeys s.cache) :
    ∃ cf, getKeyFrequency s key = some cf ∧
      getKeyFrequency (pGet lfuHooks now key s).2 key = some (cf + 1) ∧
      getKeyFrequency (pPut lfuHooks now key v sz s) key = some (cf + 1) := by
  have hk1 : key ∈ kvKeys s.aux.freq_key := (h.core.fkDom key).2 hm
  obtain ⟨cf, hcf⟩ : ∃ cf, lookupKV s.aux.freq_key key = some cf := by
    cases hl : lookupKV s.aux.freq_key key with
    | none => exact absurd hk1 (lookupKV_eq_none.1 hl)
    | some cf => exact ⟨cf, rfl⟩
  obtain ⟨e, hle⟩ : ∃ e, lookupKV s.cache key = some e := by
    cases hl : lookupKV s.cache key with
    | none => exact absurd hm (lookupKV_eq_none.1 hl)
    | some e => exact ⟨e, rfl⟩
  have hpc : pContains s key = true := by
    rw [pContains, hle]
    rfl
  refine ⟨cf, hcf, ?_, ?_⟩
  · simp only [getKeyFrequency, pGet, hle]
    show lookupKV (lfuIncrement key s.aux).freq_key key = some (cf + 1)
    exact lfu_increment_freq hcf
  · have hupd : pPut lfuHooks now key v sz s = updateEntry lfuHooks now key v sz s := by
      unfold pPut
      rw [if_pos hpc]
    rw [hupd]
    show lookupKV (lfuIncrement key s.aux).freq_key key = some (cf + 1)
    exact lfu_increment_freq hcf

theorem lfu_evict_spec {s : PState LfuAux} (h : LfuWF s) (hne : s.cache ≠ []) :
    ∃ k0 b0, lookupKV s.aux.freq_map s.aux.min_freq = some b0 ∧
      b0.head? = some k0 ∧
      (lfuEvict s).cache = eraseKV s.cache k0 ∧
      getKeyFrequency s k0 = some s.aux.min_freq ∧
      ∀ k f, getKeyFrequency s k = some f → s.aux.min_freq ≤ f := by
  obtain ⟨hcore, mfZero, mfLe, mfMem⟩ := h
  have hmin0 : s.aux.min_freq ≠ 0 := fun h0 => hne (mfZero.1 h0)
  have hminMem := mfMem hne
  obtain ⟨b0, hb0m⟩ := mem_kvKeys.1 hminMem
  have hlk0 : lookupKV s.aux.freq_map s.aux.min_freq = some b0 :=
    lookupKV_of_mem_nodup hcore.fmNodup hb0m
  have hb0ne : b0 ≠ [] := hcore.bNe _ _ hb0m
  obtain ⟨k0, rest, hb0eq⟩ : ∃ k0 rest, b0 = k0 :: rest := by
    cases b0 with
    | nil => exact absurd rfl hb0ne
    | cons x t => exact ⟨x, t, rfl⟩
  subst hb0eq
  have hk0fk : lookupKV s.aux.freq_key k0 = some s.aux.min_freq :=
    (hcore.inBucket k0 s.aux.min_freq).1 ⟨_, hlk0, List.mem_cons_self _ _⟩
  refine ⟨k0, k0 :: rest, hlk0, rfl, ?_, hk0fk, ?_⟩
  · show (lfuEvict s).cache = eraseKV s.cache k0
    unfold lfuEvict
    rw [if_neg hmin0]
    simp only [hlk0]
  · intro k f hkf
    obtain ⟨b, hb, hkb⟩ := (hcore.inBucket k f).2 hkf
    exact mfLe f b (lookupKV_mem hb)

/-- C5: in every `LFUCache` state reachable through the public operations, a
freshly inserted key gets frequency 1, sits at the back of bucket 1, and
`min_freq` becomes 1; a `get` of a present key and a `put` update of a
present key each increment that key's frequency by exactly 1; and eviction
removes the earliest-inserted key of the `min_freq` bucket, whose frequency
bounds every cached key's frequency from below. -/
theorem C5_lfu_frequency (C : Nat) (hC : 0 < C) (ops : List Op)
    (now key : Nat) (v : Val) (sz : Nat) :
    (key ∉ kvKeys (lfuRun C ops).cache →
      getKeyFrequency (pPut lfuHooks now key v sz (lfuRun C ops)) key = some 1 ∧
      ((lookupKV (pPut lfuHooks now key v sz (lfuRun C ops)).aux.freq_map 1).getD []).getLast? = some key ∧
      (pPut lfuHooks now key v sz (lfuRun C ops)).aux.min_freq = 1) ∧
    (key ∈ kvKeys (lfuRun C ops).cache →
      ∃ cf, getKeyFrequency (lfuRun C ops) key = some cf ∧
        getKeyFrequency (pGet lfuHooks now key (lfuRun C ops)).2 key = some (cf + 1) ∧
        getKeyFrequency (pPut lfuHooks now key v sz (lfuRun C ops)) key = some (cf + 1)) ∧
    ((lfuRun C ops).cache ≠ [] →
      ∃ k0 b0, lookupKV (lfuRun C ops).aux.freq_map (lfuRun C ops).aux.min_freq = some b0 ∧
        b0.head? = some k0 ∧
        (lfuEvict (lfuRun C ops)).cache = eraseKV (lfuRun C ops).cache k0 ∧
        getKeyFrequency (lfuRun C ops) k0 = some (lfuRun C ops).aux.min_freq ∧
        ∀ k f, getKeyFrequency (lfuRun C ops) k = some f →
          (lfuRun C ops).aux.min_freq ≤ f) := by
  have hwf : LfuWF (lfuRun C ops) :=
    (lfu_runOps_inv ⟨lfu_init_wf, by simp [pInit], hC⟩).1
  exact ⟨fun hk => lfu_fresh_insert_spec hwf hk,
    fun hk => lfu_access_freq_spec hwf hk,
    fun hne => lfu_evict_spec hwf hne⟩

/-- Witness for C5 on a capacity-2 LFU instance holding keys 1 and 2: a
fresh `put` of key 3 gets frequency 1, and a `get` or update of key 1
raises its frequency by exactly 1. -/
theorem C5_lfu_frequency_witness :
    getKeyFrequency (pPut lfuHooks 2 3 (some 7) 1
      (lfuRun 2 [Op.put 0 1 (some 5) 1, Op.put 1 2 (some 6) 1])) 3 = some 1 ∧
    (∃ cf, getKeyFrequency (lfuRun 2 [Op.put 0 1 (some 5) 1, Op.put 1 2 (some 6) 1]) 1 = some cf ∧
      getKeyFrequency (pGet lfuHooks 2 1
        (lfuRun 2 [Op.put 0 1 (some 5) 1, Op.put 1 2 (some 6) 1])).2 1 = some (cf + 1) ∧
      getKeyFrequency (pPut lfuHooks 2 1 (some 9) 1
        (lfuRun 2 [Op.put 0 1 (some 5) 1, Op.put 1 2 (some 6) 1])) 1 = some (cf + 1)) := by
  have h1 := C5_lfu_frequency 2 (by decide) [Op.put 0 1 (some 5) 1, Op.put 1 2 (some 6) 1]
    2 3 (some 7) 1
  have h2 := C5_lfu_frequency 2 (by decide) [Op.put 0 1 (some 5) 1, Op.put 1 2 (some 6) 1]
    2 1 (some 9) 1
  exact ⟨(h1.1 (by decide)).1, h2.2.1 (by decide)⟩

/-- C6 (amended): for every policy variant, `get` on a present key
increments the hits counter (misses untouched) and returns the stored
value, and `get` on an absent key increments the misses counter (hits
untouched) and returns `None` in-band, without raising; the entry's
timestamp is set to the access time and its access count incremented by
the LRU and LFU on-access hooks only — the FIFO on-access hook is a no-op,
so a FIFO `get` leaves the cached entries entirely unchanged (the original
claim asserts the timestamp/access-count update for every variant). -/
theorem C6_get_behavior (p : Policy) (now key : Nat) :
    (p.contains key = true →
      (∀ w, Policy.storedVal p key = some w → (Policy.get now key p).1 = w) ∧
      (Policy.get now key p).2.stats.hits = p.stats.hits + 1 ∧
      (Policy.get now key p).2.stats.misses = p.stats.misses ∧
      (∀ s e, p = Policy.lru s → lookupKV s.cache key = some e →
        lookupKV (Policy.get now key p).2.cache key = some (touch now e)) ∧
      (∀ s e, p = Policy.lfu s → lookupKV s.cache key = some e →
        lookupKV (Policy.get now key p).2.cache key = some (touch now e)) ∧
      (∀ s, p = Policy.fifo s → (Policy.get now key p).2.cache = s.cache)) ∧
    (p.contains key = false →
      (Policy.get now key p).1 = none ∧
      (Policy.get now key p).2.stats.misses = p.stats.misses + 1 ∧
      (Policy.get now key p).2.stats.hits = p.stats.hits) ∧
    (∀ e, (touch now e).timestamp = now ∧ (touch now e).access_count = e.access_count + 1) := by
  refine ⟨?_, ?_, fun e => ⟨rfl, rfl⟩⟩
  · intro h
    refine ⟨?_, (Policy.get_hits_present h).1, (Policy.get_hits_present h).2, ?_, ?_, ?_⟩
    · intro w hw
      rw [Policy.get_fst, Policy.observedVal, hw]
      rfl
    · intro s e heq he
      subst heq
      have hc : ∀ t : PState LruAux,
          (lruHooks.onAccess key now t).cache = modKV t.cache key (touch now) := by
        intro t
        show (lruOnAccess key now t).cache = modKV t.cache key (touch now)
        unfold lruOnAccess
        split <;> rfl
      show lookupKV (pGet lruHooks now key s).2.cache key = some (touch now e)
      simp only [pGet, he]
      rw [hc]
      show lookupKV (modKV s.cache key (touch now)) key = some (touch now e)
      rw [lookupKV_modKV_self, he]
      rfl
    · intro s e heq he
      subst heq
      show lookupKV (pGet lfuHooks now key s).2.cache key = some (touch now e)
      simp only [pGet, he]
      show lookupKV (modKV s.cache key (touch now)) key = some (touch now e)
      rw [lookupKV_modKV_self, he]
      rfl
    · intro s heq
      subst heq
      rw [Policy.contains, Policy.cache] at h
      obtain ⟨e, hl⟩ := Option.isSome_iff_exists.1 h
      show (pGet fifoHooks now key s).2.cache = s.cache
      simp only [pGet, hl]
      rfl
  · intro h
    have hnone : lookupKV p.cache key = none := by
      rw [Policy.contains] at h
      cases hll : lookupKV p.cache key with
      | none => rfl
      | some e =>
        rw [hll] at h
        simp at h
    refine ⟨?_, (Policy.get_stats_absent h).2, (Policy.get_stats_absent h).1⟩
    rw [Policy.get_fst, Policy.observedVal, Policy.storedVal, hnone]
    rfl

/-- C6 counterexample: on a FIFO instance holding key 1 (inserted at time
0, access count 1), a `get` at time 9 returns the value but leaves the
entry's timestamp at 0 and its access count at 1 — the claimed
timestamp/access-count update does not happen for FIFO. -/
theorem C6_get_behavior_counterexample :
    (pGet fifoHooks 9 1 (fifoRun 2 [Op.put 0 1 (some 5) 1])).1 = some 5 ∧
    (lookupKV (pGet fifoHooks 9 1 (fifoRun 2 [Op.put 0 1 (some 5) 1])).2.cache 1).map
      (fun e => (e.timestamp, e.access_count)) = some (0, 1) := by
  refine ⟨by decide, by decide⟩

/-- Witness for C6 on an LRU instance holding key 1: the hit bumps the hits
counter and the miss on key 2 bumps the misses counter. -/
theorem C6_get_behavior_witness :
    (Policy.get 9 1 (Policy.run [Op.put 0 1 (some 5) 1] (Policy.init0 PolicyKind.lru 2))).2.stats.hits =
      (Policy.run [Op.put 0 1 (some 5) 1] (Policy.init0 PolicyKind.lru 2)).stats.hits + 1 ∧
    (Policy.get 9 2 (Policy.run [Op.put 0 1 (some 5) 1] (Policy.init0 PolicyKind.lru 2))).1 = none ∧
    (Policy.get 9 2 (Policy.run [Op.put 0 1 (some 5) 1] (Policy.init0 PolicyKind.lru 2))).2.stats.misses =
      (Policy.run [Op.put 0 1 (some 5) 1] (Policy.init0 PolicyKind.lru 2)).stats.misses + 1 := by
  have h1 := C6_get_behavior (Policy.run [Op.put 0 1 (some 5) 1] (Policy.init0 PolicyKind.lru 2)) 9 1
  have h2 := C6_get_behavior (Policy.run [Op.put 0 1 (some 5) 1] (Policy.init0 PolicyKind.lru 2)) 9 2
  exact ⟨(h1.1 (by decide)).2.1, (h2.2.1 (by decide)).1, (h2.2.1 (by decide)).2.1⟩

theorem lru_onAccess_mru {s : PState LruAux} {now key : Nat} (ha : key ∈ s.aux) :
    peekMru (lruOnAccess key now s) = some key := by
  unfold lruOnAccess
  rw [if_pos ha]
  rfl

theorem lru_present_mru {s : PState LruAux} {now key : Nat} {v : Val} {sz : Nat}
    (hwf : lruWF s) (hm : key ∈ kvKeys s.cache) :
    peekMru (pGet lruHooks now key s).2 = some key ∧
    peekMru (pPut lruHooks now key v sz s) = some key := by
  have ha : key ∈ s.aux := (hwf.2.2 key).2 hm
  obtain ⟨e, hle⟩ : ∃ e, lookupKV s.cache key = some e := by
    cases hl : lookupKV s.cache key with
    | none => exact absurd hm (lookupKV_eq_none.1 hl)
    | some e => exact ⟨e, rfl⟩
  constructor
  · simp only [pGet, hle]
    show peekMru (lruOnAccess key now
      { s with stats := { s.stats with hits := s.stats.hits + 1 } }) = some key
    exact lru_onAccess_mru ha
  · have hpc : pContains s key = true := by
      rw [pContains, hle]
      rfl
    have hupd : pPut lruHooks now key v sz s = updateEntry lruHooks now key v sz s := by
      unfold pPut
      rw [if_pos hpc]
    rw [hupd]
    show peekMru (lruOnAccess key now
      { s with cache := modKV s.cache key (fun e => { e with value := v, size := sz }) }) = some key
    exact lru_onAccess_mru ha

theorem lru_overflow_evicts_lru {s : PState LruAux} {now key : Nat} {v : Val} {sz : Nat}
    (hwf : lruWF s) (hkey : key ∉ kvKeys s.cache) (hfull : s.cache.length = s.capacity)
    (hC : 0 < s.capacity) :
    ∃ k0, peekLru s = some k0 ∧
      (pPut lruHooks now key v sz s).cache =
        eraseKV s.cache k0 ++ [(key, mkEntry key v now sz)] ∧
      k0 ∉ kvKeys (pPut lruHooks now key v sz s).cache := by
  have hcne : s.cache ≠ [] := by
    intro he
    rw [he] at hfull
    simp at hfull
    omega
  have hane : s.aux ≠ [] := by
    intro he
    obtain ⟨p, hp⟩ : ∃ p, p ∈ s.cache := by
      cases hcc : s.cache with
      | nil => exact absurd hcc hcne
      | cons a t => exact ⟨a, List.mem_cons_self _ _⟩
    have hpk : p.1 ∈ kvKeys s.cache := mem_kvKeys.2 ⟨p.2, hp⟩
    have ha := (hwf.2.2 p.1).2 hpk
    rw [he] at ha
    simp at ha
  obtain ⟨a0, t0, haux⟩ : ∃ a0 t0, s.aux = a0 :: t0 := by
    cases haa : s.aux with
    | nil => exact absurd haa hane
    | cons a t => exact ⟨a, t, rfl⟩
  obtain ⟨k0, hk0⟩ : ∃ k0, s.aux.getLast? = some k0 := by
    rw [haux]
    exact ⟨(a0 :: t0).getLast (by simp), List.getLast?_eq_getLast _ (by simp)⟩
  have hk0a : k0 ∈ s.aux := by
    have hgl := List.getLast?_eq_getLast (a0 :: t0) (by simp)
    rw [haux] at hk0 ⊢
    rw [hgl] at hk0
    rw [← Option.some.inj hk0]
    exact List.getLast_mem _
  have hk0c : k0 ∈ kvKeys s.cache := (hwf.2.2 k0).1 hk0a
  have hkne : k0 ≠ key := fun he => hkey (he ▸ hk0c)
  have hevc : (lruEvict s).cache = eraseKV s.cache k0 := by
    simp only [lruEvict, hk0]
  have hpc : ¬ pContains s key = true := by
    rw [pContains, lookupKV_eq_none.2 hkey]
    simp
  have hF : isFull s = true := by
    rw [isFull, currentSize]
    simp only [decide_eq_true_eq]
    omega
  have hput : pPut lruHooks now key v sz s =
      insertEntry lruHooks now key v sz (lruEvict s) := by
    unfold pPut
    rw [if_neg hpc, if_pos hF]
    rfl
  refine ⟨k0, hk0, ?_, ?_⟩
  · rw [hput]
    show (lruEvict s).cache ++ [(key, mkEntry key v now sz)] = _
    rw [hevc]
  · rw [hput]
    show k0 ∉ kvKeys ((lruEvict s).cache ++ [(key, mkEntry key v now sz)])
    rw [hevc, kvKeys_append]
    intro hmem
    rcases List.mem_append.1 hmem with hmem1 | hmem2
    · rw [kvKeys_eraseKV] at hmem1
      exact (List.Nodup.not_mem_erase hwf.1) hmem1
    · simp at hmem2
      exact hkne hmem2

/-- C7: in every `LRUCache` state reachable through the public operations,
a `get` or a `put` update of a present key makes that key the MRU
(`peek_mru` returns it immediately afterwards); and a `put` of a new key on
a full cache evicts exactly the key `peek_lru` reported just before the
`put`, appending the new entry in its place. -/
theorem C7_lru_recency (C : Nat) (hC : 0 < C) (ops : List Op)
    (now key : Nat) (v : Val) (sz : Nat) :
    (key ∈ kvKeys (lruRun C ops).cache →
      peekMru (pGet lruHooks now key (lruRun C ops)).2 = some key ∧
      peekMru (pPut lruHooks now key v sz (lruRun C ops)) = some key) ∧
    (key ∉ kvKeys (lruRun C ops).cache →
      (lruRun C ops).cache.length = (lruRun C ops).capacity →
      ∃ k0, peekLru (lruRun C ops) = some k0 ∧
        (pPut lruHooks now key v sz (lruRun C ops)).cache =
          eraseKV (lruRun C ops).cache k0 ++ [(key, mkEntry key v now sz)] ∧
        k0 ∉ kvKeys (pPut lruHooks now key v sz (lruRun C ops)).cache) := by
  obtain ⟨hwf, hle, hcap⟩ := lru_runOps_inv (s := pInit C []) ⟨lru_init_wf, by simp [pInit], hC⟩
  exact ⟨fun hm => lru_present_mru hwf hm,
    fun hk hfull => lru_overflow_evicts_lru hwf hk hfull hcap⟩

/-- Witness for C7 on a capacity-1 LRU instance holding key 1: a `get`
keeps key 1 as MRU, and a `put` of key 2 evicts key 1, the LRU peek just
before. -/
theorem C7_lru_recency_witness :
    peekMru (pGet lruHooks 3 1 (lruRun 1 [Op.put 0 1 (some 5) 1])).2 = some 1 ∧
    (∃ k0, peekLru (lruRun 1 [Op.put 0 1 (some 5) 1]) = some k0 ∧
      (pPut lruHooks 4 2 (some 7) 1 (lruRun 1 [Op.put 0 1 (some 5) 1])).cache =
        eraseKV (lruRun 1 [Op.put 0 1 (some 5) 1]).cache k0 ++ [(2, mkEntry 2 (some 7) 4 1)] ∧
      k0 ∉ kvKeys (pPut lruHooks 4 2 (some 7) 1 (lruRun 1 [Op.put 0 1 (some 5) 1])).cache) := by
  have h1 := C7_lru_recency 1 (by decide) [Op.put 0 1 (some 5) 1] 3 1 (some 7) 1
  have h2 := C7_lru_recency 1 (by decide) [Op.put 0 1 (some 5) 1] 4 2 (some 7) 1
  exact ⟨(h1.1 (by decide)).1, h2.2 (by decide) (by decide)⟩

/-- C8: in every `LFUCache` state reachable through the public operations,
every cached key lies in exactly one frequency bucket, that bucket's
frequency is the key's entry in `_freq_key`, and `min_freq` is 0 exactly on
the empty cache and otherwise is the smallest frequency whose bucket is
non-empty. -/
theorem C8_lfu_invariant (C : Nat) (hC : 0 < C) (ops : List Op) :
    (∀ k, k ∈ kvKeys (lfuRun C ops).cache →
      ∃ f b, lookupKV (lfuRun C ops).aux.freq_key k = some f ∧
        lookupKV (lfuRun C ops).aux.freq_map f = some b ∧ k ∈ b ∧
        (∀ f' b', lookupKV (lfuRun C ops).aux.freq_map f' = some b' → k ∈ b' → f' = f)) ∧
    ((lfuRun C ops).aux.min_freq = 0 ↔ (lfuRun C ops).cache = []) ∧
    ((lfuRun C ops).cache ≠ [] →
      (lookupKV (lfuRun C ops).aux.freq_map (lfuRun C ops).aux.min_freq).getD [] ≠ [] ∧
      ∀ f b, lookupKV (lfuRun C ops).aux.freq_map f = some b →
        (lfuRun C ops).aux.min_freq ≤ f) := by
  have hwf : LfuWF (lfuRun C ops) :=
    (lfu_runOps_inv ⟨lfu_init_wf, by simp [pInit], hC⟩).1
  obtain ⟨hcore, mfZero, mfLe, mfMem⟩ := hwf
  refine ⟨?_, mfZero, ?_⟩
  · intro k hk
    have hk1 : k ∈ kvKeys (lfuRun C ops).aux.freq_key := (hcore.fkDom k).2 hk
    obtain ⟨f, hcf⟩ : ∃ f, lookupKV (lfuRun C ops).aux.freq_key k = some f := by
      cases hl : lookupKV (lfuRun C ops).aux.freq_key k with
      | none => exact absurd hk1 (lookupKV_eq_none.1 hl)
      | some f => exact ⟨f, rfl⟩
    obtain ⟨b, hb, hkb⟩ := (hcore.inBucket k f).2 hcf
    refine ⟨f, b, hcf, hb, hkb, ?_⟩
    intro f' b' hb' hkb'
    have h2 : lookupKV (lfuRun C ops).aux.freq_key k = some f' :=
      (hcore.inBucket k f').1 ⟨b', hb', hkb'⟩
    rw [hcf] at h2
    exact (Option.some.inj h2).symm
  · intro hne
    constructor
    · have hmem := mfMem hne
      obtain ⟨b, hbm⟩ := mem_kvKeys.1 hmem
      have hlk : lookupKV (lfuRun C ops).aux.freq_map (lfuRun C ops).aux.min_freq = some b :=
        lookupKV_of_mem_nodup hcore.fmNodup hbm
      rw [hlk]
      exact hcore.bNe _ _ hbm
    · intro f b hb
      exact mfLe f b (lookupKV_mem hb)

/-- Witness for C8 on a capacity-2 LFU instance after two inserts and a
`get`: key 1 sits in exactly one bucket (frequency 2) and `min_freq`
is non-zero with the cache non-empty. -/
theorem C8_lfu_invariant_witness :
    ((lfuRun 2 [Op.put 0 1 (some 5) 1, Op.put 1 2 (some 6) 1, Op.get 2 1]).aux.min_freq = 0 ↔
      (lfuRun 2 [Op.put 0 1 (some 5) 1, Op.put 1 2 (some 6) 1, Op.get 2 1]).cache = []) ∧
    (∃ f b, lookupKV (lfuRun 2 [Op.put 0 1 (some 5) 1, Op.put 1 2 (some 6) 1, Op.get 2 1]).aux.freq_key 1 = some f ∧
      lookupKV (lfuRun 2 [Op.put 0 1 (some 5) 1, Op.put 1 2 (some 6) 1, Op.get 2 1]).aux.freq_map f = some b ∧
      1 ∈ b ∧
      (∀ f' b', lookupKV (lfuRun 2 [Op.put 0 1 (some 5) 1, Op.put 1 2 (some 6) 1, Op.get 2 1]).aux.freq_map f' = some b' →
        1 ∈ b' → f' = f)) := by
  have h := C8_lfu_invariant 2 (by decide) [Op.put 0 1 (some 5) 1, Op.put 1 2 (some 6) 1, Op.get 2 1]
  exact ⟨h.2.1, h.1 1 (by decide)⟩

/-- C9: constructing a policy instance of any variant fails with the
invalid-argument `ValueError` exactly when the requested capacity is not
positive, and no object is produced in that case; with a positive capacity
construction succeeds and yields the fully initialised empty instance. -/
theorem C9_init_validation (k : PolicyKind) (c : Int) :
    (c ≤ 0 →
      Policy.init k c = Except.error "La capacidad de la caché debe ser un número positivo.") ∧
    (0 < c →
      Policy.init k c = Except.ok (Policy.init0 k c.toNat) ∧
      Policy.size (Policy.init0 k c.toNat) = 0 ∧
      Policy.capacity (Policy.init0 k c.toNat) = c.toNat ∧
      Policy.stats (Policy.init0 k c.toNat) = initStats c.toNat) := by
  constructor
  · intro hc
    unfold Policy.init
    rw [if_pos hc]
  · intro hc
    refine ⟨?_, ?_, ?_, ?_⟩
    · unfold Policy.init
      rw [if_neg (by omega)]
      cases k <;> rfl
    · cases k <;> rfl
    · cases k <;> rfl
    · cases k <;> rfl

/-- Witness for C9: capacity -1 is rejected with the `ValueError` message,
capacity 3 yields the empty LFU instance. -/
theorem C9_init_validation_witness :
    Policy.init PolicyKind.fifo (-1) =
      Except.error "La capacidad de la caché debe ser un número positivo." ∧
    Policy.init PolicyKind.lfu 3 = Except.ok (Policy.init0 PolicyKind.lfu (3 : Int).toNat) ∧
    Policy.size (Policy.init0 PolicyKind.lfu (3 : Int).toNat) = 0 := by
  have h1 := C9_init_validation PolicyKind.fifo (-1)
  have h2 := C9_init_validation PolicyKind.lfu 3
  exact ⟨h1.1 (by decide), (h2.2 (by decide)).1, (h2.2 (by decide)).2.1⟩

/-- C10: a hierarchy `get` that misses at every level returns `None`,
leaves the global cumulative latency total (and the hit and promotion
counters) unchanged while bumping the global miss counter, updates each
traversed level by exactly the miss step — which adds that level's latency
to its per-level cumulative latency counter — and therefore reports an
average latency that divides the unchanged hit-only latency total by the
new total access count, counting the miss as zero latency. -/
theorem C10_miss_latency (now key : Nat) (h : CacheHierarchy)
    (hmiss : ∀ lv ∈ h.levels, Policy.observedVal lv.cache key = none) :
    (hGet now key h).1 = none ∧
    (hGet now key h).2.total_latency_ms = h.total_latency_ms ∧
    (hGet now key h).2.levels = h.levels.map (missStep now key) ∧
    (∀ lv, (missStep now key lv).stats.total_latency_ms =
      lv.stats.total_latency_ms + lv.latency_ms) ∧
    (hGet now key h).2.total_hits = h.total_hits ∧
    (hGet now key h).2.total_misses = h.total_misses + 1 ∧
    (hGet now key h).2.total_promotions = h.total_promotions ∧
    globalAvgLatency (hGet now key h).2 =
      h.total_latency_ms / ((h.total_hits + h.total_misses + 1 : Nat) : ℚ) := by
  have hloop := @hGetLoop_miss_all now key h.levels 0 hmiss
  refine ⟨?_, ?_, ?_, fun lv => rfl, ?_, ?_, ?_, ?_⟩
  · simp only [hGet, hloop]
  · simp only [hGet, hloop]
  · simp only [hGet, hloop]
  · simp only [hGet, hloop]
  · simp only [hGet, hloop]
  · simp only [hGet, hloop]
  · have h2 : (hGet now key h).2 = { h with levels := h.levels.map (missStep now key), total_misses := h.total_misses + 1 } := by
      simp only [hGet, hloop]
    rw [h2]
    unfold globalAvgLatency
    rw [if_pos (show 0 < h.total_hits + (h.total_misses + 1) by omega)]
    rw [← Nat.add_assoc]

/-- Witness for C10 on a one-level hierarchy over an empty FIFO level: the
miss leaves the global latency total at 0 and the average divides by the
single access. -/
theorem C10_miss_latency_witness :
    (hGet 0 1 c4Hierarchy).1 = none ∧
    (hGet 0 1 c4Hierarchy).2.total_latency_ms = c4Hierarchy.total_latency_ms ∧
    globalAvgLatency (hGet 0 1 c4Hierarchy).2 =
      c4Hierarchy.total_latency_ms /
        ((c4Hierarchy.total_hits + c4Hierarchy.total_misses + 1 : Nat) : ℚ) := by
  have h := C10_miss_latency 0 1 c4Hierarchy (by decide)
  exact ⟨h.1, h.2.1, h.2.2.2.2.2.2.2⟩

end CacheSystem
